import Mathlib

/-!
# Personal finance ledger: persistence and categorization core

A shallow embedding of `include/models.h`, `include/repositories.h` and
`include/services.h`.

* A `std::string` is the list of its characters.
* `Decimal` is the `double` of the source: an IEEE 754 binary64 value, with
  its NaN, its infinities and its two zeros; an addition is the exact sum
  rounded to the nearest double, ties to even.  The text form of a `double`
  (`operator<<` and `std::stod`) is a parameter of the functions that write
  and read amounts.
* The confidence of a proposal and the threshold it is compared with are
  exact numbers: the only confidences are 0.95 and 0.0.
* A `std::shared_ptr<Category>` is an address together with the object it
  points to.  No function of the program writes through such a pointer, so the
  object behind an address never changes; `make_shared` hands out fresh
  addresses from an allocation counter that is threaded through the functions
  that allocate.
* A `std::map` keyed by strings is the list of its entries in key order.
* A file is the text it holds; a file that cannot be opened is `none`.
* The local calendar (`localtime_r`) and the clock (`system_clock::now`) are
  parameters of the functions that read them.
-/

namespace Ledger

/-! ## models.h -/

/-- A `std::string`. -/
abbrev Str := List Char

/-- A `double` (IEEE 754 binary64).  A finite value other than the negative
zero is held as the rational number it stands for, and all NaNs are one value.
`finite q` is a double when `Double.representable q`; the operations are
defined on every value of the type. -/
inductive Double where
  | finite (q : ℚ)
  | negZero
  | inf (negative : Bool)
  | nan
deriving DecidableEq

namespace Double

/-- A natural number with its factors of two (up to 1100 of them) removed. -/
def oddPart (n : Nat) : Nat := n / Nat.gcd n (2 ^ 1100)

/-- Whether a rational is the value of a finite double: a multiple of
`2 ^ (-1074)` with at most 53 significant bits and of magnitude below
`2 ^ 1024`. -/
@[irreducible] def representable (q : ℚ) : Bool :=
  decide (2 ^ 1074 % q.den = 0) && decide (oddPart q.num.natAbs < 2 ^ 53) &&
    decide (q.num.natAbs < 2 ^ 1024 * q.den)

/-- The binary logarithm of a natural number, rounded down, by halving; 0 for
the number 0. -/
def log2Fuel : Nat → Nat → Nat
  | 0, _ => 0
  | fuel + 1, n => if n < 2 then 0 else log2Fuel fuel (n / 2) + 1

/-- The binary logarithm of a natural number, rounded down. -/
def log2Nat (n : Nat) : Nat := log2Fuel n n

/-- The power `2 ^ e` for an integer exponent. -/
@[irreducible] def pow2 (e : Int) : ℚ :=
  if 0 ≤ e then ((2 ^ e.toNat : Nat) : ℚ) else 1 / ((2 ^ (-e).toNat : Nat) : ℚ)

/-- The binary logarithm of a positive rational, rounded down. -/
@[irreducible] def floorLog2 (a : ℚ) : Int :=
  let l : Int := (log2Nat a.num.natAbs : Int) - (log2Nat a.den : Int)
  if pow2 l ≤ a then l else l - 1

/-- The double nearest to a rational, ties to the even significand: the value
itself when it is representable; else the nearest multiple of the spacing of
the doubles at its magnitude (`2 ^ (-1074)` at the least), an infinity from
`2 ^ 1024` on, and a zero of the sign of the value when it rounds to 0. -/
@[irreducible] def round (q : ℚ) : Double :=
  if representable q then finite q
  else
    let a : ℚ := |q|
    let e : Int := max (floorLog2 a - 52) (-1074)
    let scaled : ℚ := a / pow2 e
    let m0 : Int := ⌊scaled⌋
    let frac : ℚ := scaled - m0
    let m : Int := if 1 / 2 < frac ∨ (frac = 1 / 2 ∧ m0 % 2 = 1) then m0 + 1 else m0
    let v : ℚ := m * pow2 e
    if pow2 1024 ≤ v then inf (decide (q < 0))
    else if v = 0 then (if q < 0 then negZero else finite 0)
    else finite (if q < 0 then -v else v)

/-- Models `a + b` on doubles: a NaN when either is a NaN or the two are
opposite infinities; the negative zero only for two negative zeros; else the
exact sum, rounded. -/
def add : Double → Double → Double
  | nan, _ => nan
  | _, nan => nan
  | inf s, inf t => if s = t then inf s else nan
  | inf s, _ => inf s
  | _, inf t => inf t
  | negZero, negZero => negZero
  | negZero, finite q => round q
  | finite p, negZero => round p
  | finite p, finite q => round (p + q)

/-- Models `-a` on doubles. -/
def neg : Double → Double
  | nan => nan
  | inf s => inf (!s)
  | negZero => finite 0
  | finite q => if q = 0 then negZero else finite (-q)

/-- Models `a < b` on doubles: false when either is a NaN; the two zeros are
equal. -/
def lt : Double → Double → Bool
  | nan, _ => false
  | _, nan => false
  | inf s, inf t => s && !t
  | inf s, _ => s
  | _, inf t => !t
  | negZero, negZero => false
  | negZero, finite q => decide (0 < q)
  | finite p, negZero => decide (p < 0)
  | finite p, finite q => decide (p < q)

/-- Models `a >= b` on doubles: false when either is a NaN; the two zeros are
equal. -/
def ge : Double → Double → Bool
  | nan, _ => false
  | _, nan => false
  | inf s, inf t => !s || t
  | inf s, _ => !s
  | _, inf t => t
  | negZero, negZero => true
  | negZero, finite q => decide (q ≤ 0)
  | finite p, negZero => decide (0 ≤ p)
  | finite p, finite q => decide (q ≤ p)

/-- An integer literal as a double. -/
instance (n : Nat) : OfNat Double n := ⟨round (n : ℚ)⟩

instance : Neg Double := ⟨neg⟩

instance : Add Double := ⟨add⟩

end Double

/-- The `Decimal` of models.h: `using Decimal = double`. -/
abbrev Decimal := Double

/-- The confidence of a proposal and the threshold of an import (each a
`double` in the source), as exact numbers. -/
abbrev Confidence := ℚ

/-- A `system_clock::time_point`: ticks since the epoch. -/
abbrev TimePoint := Int

/-- Ticks of the system clock in one second (nanosecond resolution). -/
def ticksPerSecond : Int := 1000000000

/-- Models `system_clock::to_time_t`: whole seconds, truncated toward zero. -/
def to_time_t (t : TimePoint) : Int := Int.tdiv t ticksPerSecond

/-- Models `system_clock::from_time_t`. -/
def from_time_t (s : Int) : TimePoint := s * ticksPerSecond

/-- Models `enum class CategoryType`. -/
inductive CategoryType where
  | Expense
  | Income
deriving DecidableEq, Repr

/-- Models `static_cast<int>` of a `CategoryType`. -/
def CategoryType.toInt : CategoryType → Int
  | .Expense => 0
  | .Income => 1

/-- Models `struct Category`. -/
structure Category where
  categoryId : Str
  name : Str
  type : CategoryType
deriving DecidableEq, Repr

/-- A non-null `std::shared_ptr<Category>`: the address of the object and the
object itself. -/
structure CategoryPtr where
  addr : Nat
  obj : Category
deriving DecidableEq, Repr

/-- The allocation counter: the next address `make_shared` hands out. -/
abbrev Heap := Nat

/-- Models `std::make_shared<Category>(c)`: a copy of `c` at a fresh address. -/
def make_shared (heap : Heap) (c : Category) : CategoryPtr × Heap :=
  (⟨heap, c⟩, heap + 1)

/-- Models `struct Transaction`; `category` is `none` for a null pointer. -/
structure Transaction where
  txnId : Str
  amount : Decimal
  date : TimePoint
  merchant : Str
  category : Option CategoryPtr
  notes : Str
deriving DecidableEq

/-! ## Strings and `std::map` -/

/-- The quote character. -/
def dquote : Char := Char.ofNat 34

/-- The comma, the field delimiter. -/
def comma : Char := Char.ofNat 44

/-- The line feed, the record delimiter. -/
def newline : Char := Char.ofNat 10

/-- Models `operator<` of `std::string`: lexicographic comparison. -/
def strLt : Str → Str → Bool
  | [], [] => false
  | [], _ :: _ => true
  | _ :: _, [] => false
  | a :: as, b :: bs =>
    if a < b then true else if b < a then false else strLt as bs

/-- Whether `kw` starts at the front of `s`. -/
def startsWith : Str → Str → Bool
  | _, [] => true
  | [], _ :: _ => false
  | c :: cs, k :: ks => if c = k then startsWith cs ks else false

/-- Models `s.find(kw)`: the first position at which `kw` occurs in `s`, `none` for
`std::string::npos`. -/
def strFind : Str → Str → Option Nat
  | [], kw => if startsWith [] kw then some 0 else none
  | c :: cs, kw =>
    if startsWith (c :: cs) kw then some 0
    else (strFind cs kw).map (· + 1)

/-- A `std::map<std::string, β>`: its entries in iteration (key) order. -/
abbrev StdMap (β : Type) := List (Str × β)

namespace StdMap

/-- Models `m.find(k)`: the value stored under `k`, `none` for `m.end()`. -/
def find {β : Type} (m : StdMap β) (k : Str) : Option β :=
  match m with
  | [] => none
  | (k1, v) :: rest => if k1 = k then some v else find rest k

/-- Models `m[k] = v`: overwrite the entry of `k`, or insert one at its place in
key order. -/
def insert {β : Type} (m : StdMap β) (k : Str) (v : β) : StdMap β :=
  match m with
  | [] => [(k, v)]
  | (k1, v1) :: rest =>
    if strLt k k1 then (k, v) :: (k1, v1) :: rest
    else if strLt k1 k then (k1, v1) :: insert rest k v
    else (k, v) :: rest

/-- Models `m.erase(m.find(k))` for a key that is present: drop its entry. -/
def erase {β : Type} (m : StdMap β) (k : Str) : StdMap β :=
  match m with
  | [] => []
  | (k1, v) :: rest => if k1 = k then rest else (k1, v) :: erase rest k

/-- Models `m[k] += x` on a map of numbers: `operator[]` reads the value
of a missing key as a fresh 0. -/
def addTo (m : StdMap Decimal) (k : Str) (x : Decimal) : StdMap Decimal :=
  insert m k ((find m k).getD 0 + x)

/-- The representation invariant of a `std::map`: keys strictly increasing. -/
def WF {β : Type} (m : StdMap β) : Prop :=
  m.Pairwise (fun a b => strLt a.1 b.1 = true)

end StdMap

/-! ## repositories.h: CSV helpers -/

/-- Models `escapeCsv`: double every quote character. -/
def escapeCsv : Str → Str
  | [] => []
  | c :: cs =>
    if c = dquote then dquote :: dquote :: escapeCsv cs
    else c :: escapeCsv cs

/-- Models `unescapeCsv`: a quote followed by a quote becomes one quote; every other
character is copied. -/
def unescapeCsv : Str → Str
  | [] => []
  | [c] => [c]
  | c :: d :: rest =>
    if c = dquote ∧ d = dquote then dquote :: unescapeCsv rest
    else c :: unescapeCsv (d :: rest)

/-- The tokens that `while (std::getline(stream, token, delim))` reads from a
stream holding `s`: the pieces between delimiters; a stream that is at its end
yields no further token, so an empty piece after the last delimiter is not
read. -/
def getlineAll (delim : Char) : Str → List Str
  | [] => []
  | c :: cs =>
    if c = delim then [] :: getlineAll delim cs
    else
      match getlineAll delim cs with
      | [] => [[c]]
      | t :: ts => (c :: t) :: ts

/-- The two trimming steps of `splitCsvLine`: erase a leading quote, then pop
a trailing quote (of what is left). -/
def trimQuotes (token : Str) : Str :=
  let t1 := match token with
    | c :: cs => if c = dquote then cs else token
    | [] => token
  if t1.getLast? = some dquote then t1.dropLast else t1

/-- Models `splitCsvLine`: split on commas, trim surrounding quotes. -/
def splitCsvLine (line : Str) : List Str :=
  (getlineAll comma line).map trimQuotes

/-- Models `isspace` in the C locale. -/
def isSpace (c : Char) : Bool :=
  c.toNat = 32 || (9 ≤ c.toNat && c.toNat ≤ 13)

/-- The value of the leading run of decimal digits of a string, after `acc`. -/
def digitsValue (acc : Nat) : Str → Nat
  | [] => acc
  | c :: cs =>
    if c.isDigit then digitsValue (acc * 10 + (c.toNat - 48)) cs else acc

/-- The integer that `strtol`/`strtoll` (base 10) read at the front of `s`:
white space, an optional sign, then at least one digit; `none` when there is
no digit to convert. -/
def strtol (s : Str) : Option Int :=
  let s1 := s.dropWhile isSpace
  let signed : Bool × Str := match s1 with
    | [] => (false, s1)
    | c :: r =>
      if c = Char.ofNat 45 then (true, r)
      else if c = Char.ofNat 43 then (false, r)
      else (false, s1)
  match signed.2 with
  | [] => none
  | c :: _ =>
    if c.isDigit then
      some (if signed.1 then -(digitsValue 0 signed.2 : Int) else (digitsValue 0 signed.2 : Int))
    else none

/-- Models `std::stoi`: `none` when it throws (nothing to convert, or a value that
does not fit a 32-bit `int`). -/
def stoi (s : Str) : Option Int :=
  match strtol s with
  | none => none
  | some v => if -2147483648 ≤ v ∧ v ≤ 2147483647 then some v else none

/-- Models `std::stoll`: `none` when it throws (nothing to convert, or a value that
does not fit a 64-bit `long long`). -/
def stoll (s : Str) : Option Int :=
  match strtol s with
  | none => none
  | some v =>
    if -9223372036854775808 ≤ v ∧ v ≤ 9223372036854775807 then some v else none

/-- Models `operator<<` of an integer: its decimal digits, with a minus sign when
negative. -/
def showInt (n : Int) : Str :=
  if n < 0 then Char.ofNat 45 :: Nat.toDigits 10 n.natAbs
  else Nat.toDigits 10 n.toNat

/-- A string field as the writers put it: escaped, between two quotes. -/
def quoted (s : Str) : Str := dquote :: (escapeCsv s ++ [dquote])

/-- The text form of a `double`: `put` is `operator<<`, `stod` is `std::stod`
(`none` when it throws). -/
structure DecimalText where
  put : Decimal → Str
  stod : Str → Option Decimal

/-! ## repositories.h: CategoryRepository -/

/-- Models `class CategoryRepository`: the private map `byName`. -/
structure CategoryRepository where
  byName : StdMap CategoryPtr
deriving DecidableEq

namespace CategoryRepository

/-- A freshly constructed repository. -/
def empty : CategoryRepository := ⟨[]⟩

/-- Models `findByName`. -/
def findByName (repo : CategoryRepository) (name : Str) : Option CategoryPtr :=
  StdMap.find repo.byName name

/-- Models `save`: allocate a copy of `c`, store it under `c.name`, return it. -/
def save (repo : CategoryRepository) (heap : Heap) (c : Category) :
    CategoryPtr × CategoryRepository × Heap :=
  let alloc := make_shared heap c
  (alloc.1, ⟨StdMap.insert repo.byName c.name alloc.1⟩, alloc.2)

/-- Models `all`: the stored pointers in map order. -/
def all (repo : CategoryRepository) : List CategoryPtr :=
  repo.byName.map Prod.snd

/-- Models `remove`: `false` when the name is absent, else erase it and `true`. -/
def remove (repo : CategoryRepository) (name : Str) : Bool × CategoryRepository :=
  match StdMap.find repo.byName name with
  | none => (false, repo)
  | some _ => (true, ⟨StdMap.erase repo.byName name⟩)

/-- One record of `saveToCsv`: quoted id, quoted name, kind as integer. -/
def record (c : Category) : Str :=
  quoted c.categoryId ++ comma :: (quoted c.name ++ comma :: (showInt c.type.toInt ++ [newline]))

/-- Models `saveToCsv`: the text written to the (truncated) file, one record per
entry of `byName` in map order. -/
def saveToCsv (repo : CategoryRepository) : Str :=
  repo.byName.foldr (fun p out => record p.2.obj ++ out) []

/-- The body of the reading loop of `loadFromCsv` for one line. -/
def loadLine (st : CategoryRepository × Heap) (line : Str) : CategoryRepository × Heap :=
  if line = [] then st
  else
    match splitCsvLine line with
    | p0 :: p1 :: p2 :: _ =>
      let ti : Int := (stoi p2).getD 0
      let c : Category :=
        { categoryId := unescapeCsv p0
          name := unescapeCsv p1
          type := if ti = 1 then CategoryType.Income else CategoryType.Expense }
      (st.1.save st.2 c).2
    | _ => st

/-- Models `loadFromCsv`: nothing when the file cannot be opened, else every line in
turn. -/
def loadFromCsv (repo : CategoryRepository) (heap : Heap) (file : Option Str) :
    CategoryRepository × Heap :=
  match file with
  | none => (repo, heap)
  | some text => (getlineAll newline text).foldl loadLine (repo, heap)

end CategoryRepository

/-! ## Calendar time -/

/-- The two fields of `struct tm` the program reads: years since 1900 and the
month counted from 0. -/
structure Tm where
  tm_year : Int
  tm_mon : Int
deriving DecidableEq

/-- The local calendar, `localtime_r` (`localtime_s`): it depends on the time
zone of the process and is a parameter of the functions that filter by
period. -/
abbrev LocalTime := Int → Tm

/-! ## repositories.h: TransactionRepository -/

/-- Models `class TransactionRepository`: the private vector `txns`. -/
structure TransactionRepository where
  txns : List Transaction
deriving DecidableEq

namespace TransactionRepository

/-- A freshly constructed repository. -/
def empty : TransactionRepository := ⟨[]⟩

/-- Models `save`: `push_back`. -/
def save (repo : TransactionRepository) (t : Transaction) : TransactionRepository :=
  ⟨repo.txns ++ [t]⟩

/-- The loop body of `clearCategory` for one transaction. -/
def clearOne (categoryName : Str) (t : Transaction) : Transaction :=
  match t.category with
  | some c => if c.obj.name = categoryName then { t with category := none } else t
  | none => t

/-- Models `clearCategory`: null the reference of every transaction whose category
has this name. -/
def clearCategory (repo : TransactionRepository) (categoryName : Str) :
    TransactionRepository :=
  ⟨repo.txns.map (clearOne categoryName)⟩

/-- Models `findAll`: a copy of the vector. -/
def findAll (repo : TransactionRepository) : List Transaction := repo.txns

/-- Models `findByUserAndMonth`: the transactions whose local year and month
(counted from 1) are the given ones, in order; the user id is ignored. -/
def findByUserAndMonth (localtime : LocalTime) (repo : TransactionRepository)
    (_userId : Str) (year month : Int) : List Transaction :=
  repo.txns.filter fun t =>
    decide ((localtime (to_time_t t.date)).tm_year + 1900 = year ∧
      (localtime (to_time_t t.date)).tm_mon + 1 = month)

/-- Models `findByCategory`: the transactions whose category is non-null and has
this name, in order. -/
def findByCategory (repo : TransactionRepository) (categoryName : Str) :
    List Transaction :=
  repo.txns.filter fun t =>
    match t.category with
    | some c => decide (c.obj.name = categoryName)
    | none => false

/-- Models `searchByKeyword`: the transactions with `kw` in the notes or in the
merchant. -/
def searchByKeyword (repo : TransactionRepository) (kw : Str) : List Transaction :=
  repo.txns.filter fun t => (strFind t.notes kw).isSome || (strFind t.merchant kw).isSome

/-- One record of `saveToCsv`. -/
def record (dt : DecimalText) (t : Transaction) : Str :=
  let categoryName : Str := match t.category with
    | some c => c.obj.name
    | none => []
  quoted t.txnId ++ comma :: (dt.put t.amount ++ comma :: (showInt (to_time_t t.date) ++
    comma :: (quoted t.merchant ++ comma :: (quoted categoryName ++ comma ::
      (quoted t.notes ++ [newline])))))

/-- Models `saveToCsv`: the text written to the (truncated) file, one record per
transaction in order. -/
def saveToCsv (dt : DecimalText) (repo : TransactionRepository) : Str :=
  repo.txns.foldr (fun t out => record dt t ++ out) []

/-- The body of the reading loop of `loadFromCsv` for one line.  `clock n` is
what `system_clock::now()` returns while the store holds `n` transactions. -/
def loadLine (dt : DecimalText) (clock : Nat → TimePoint)
    (catRepo : Option CategoryRepository) (repo : TransactionRepository) (line : Str) :
    TransactionRepository :=
  if line = [] then repo
  else
    match splitCsvLine line with
    | p0 :: p1 :: p2 :: p3 :: p4 :: p5 :: _ =>
      let catName := unescapeCsv p4
      let t : Transaction :=
        { txnId := unescapeCsv p0
          amount := (dt.stod p1).getD 0
          date := match stoll p2 with
            | some tt => from_time_t tt
            | none => clock repo.txns.length
          merchant := unescapeCsv p3
          category := match catRepo with
            | some cr => if catName ≠ [] then cr.findByName catName else none
            | none => none
          notes := unescapeCsv p5 }
      ⟨repo.txns ++ [t]⟩
    | _ => repo

/-- Models `loadFromCsv`: nothing when the file cannot be opened, else every line in
turn; `catRepo` is `none` for a null resolver. -/
def loadFromCsv (dt : DecimalText) (clock : Nat → TimePoint)
    (repo : TransactionRepository) (file : Option Str)
    (catRepo : Option CategoryRepository) : TransactionRepository :=
  match file with
  | none => repo
  | some text => (getlineAll newline text).foldl (loadLine dt clock catRepo) repo

end TransactionRepository

/-! ## services.h -/

/-- Models `class CategorizerService`: the private keyword map; the repository it
refers to is passed to each call. -/
structure CategorizerService where
  keywordToCategory : StdMap Str
deriving DecidableEq

namespace CategorizerService

/-- One seeding step of the constructor: save `c` unless its name is found. -/
def seed (st : CategoryRepository × Heap) (c : Category) : CategoryRepository × Heap :=
  match st.1.findByName c.name with
  | some _ => st
  | none => (st.1.save st.2 c).2

/-- The keyword map the constructor fills, assignment by assignment. -/
def defaultKeywords : StdMap Str :=
  let m0 : StdMap Str := []
  let m1 := StdMap.insert m0 "eat".toList "Food".toList
  let m2 := StdMap.insert m1 "meal".toList "Food".toList
  let m3 := StdMap.insert m2 "lunch".toList "Food".toList
  let m4 := StdMap.insert m3 "subway".toList "Transport".toList
  let m5 := StdMap.insert m4 "bus".toList "Transport".toList
  StdMap.insert m5 "salary".toList "Salary".toList

/-- The constructor: seed Food, Transport and Salary where absent, then fill
the keyword map. -/
def new (catRepo : CategoryRepository) (heap : Heap) :
    CategorizerService × CategoryRepository × Heap :=
  let s1 := seed (catRepo, heap) ⟨"c_food".toList, "Food".toList, CategoryType.Expense⟩
  let s2 := seed s1 ⟨"c_trans".toList, "Transport".toList, CategoryType.Expense⟩
  let s3 := seed s2 ⟨"c_salary".toList, "Salary".toList, CategoryType.Income⟩
  (⟨defaultKeywords⟩, s3.1, s3.2)

/-- The scan of `autoCategorize` over the entries of the keyword map. -/
def scan (catRepo : CategoryRepository) (t : Transaction) :
    List (Str × Str) → Option CategoryPtr × Confidence
  | [] => (none, 0)
  | kv :: rest =>
    if (strFind t.merchant kv.1).isSome || (strFind t.notes kv.1).isSome then
      match catRepo.findByName kv.2 with
      | some c => (some c, 95 / 100)
      | none => scan catRepo t rest
    else scan catRepo t rest

/-- Models `autoCategorize`: the proposed category and the confidence. -/
def autoCategorize (svc : CategorizerService) (catRepo : CategoryRepository)
    (t : Transaction) : Option CategoryPtr × Confidence :=
  scan catRepo t svc.keywordToCategory

end CategorizerService

namespace TransactionService

/-- The loop body of `importTransactions` for one transaction. -/
def importOne (categorizer : CategorizerService) (catRepo : CategoryRepository)
    (confidenceThreshold : Confidence) (repo : TransactionRepository) (t : Transaction) :
    TransactionRepository :=
  let res := categorizer.autoCategorize catRepo t
  let copy : Transaction :=
    match res.1 with
    | some c => if res.2 ≥ confidenceThreshold then { t with category := some c } else t
    | none => t
  repo.save copy

/-- Models `importTransactions`. -/
def importTransactions (categorizer : CategorizerService) (catRepo : CategoryRepository)
    (repo : TransactionRepository) (txns : List Transaction)
    (confidenceThreshold : Confidence) : TransactionRepository :=
  txns.foldl (importOne categorizer catRepo confidenceThreshold) repo

/-- Models `addTransaction`: a pass-through `save`. -/
def addTransaction (repo : TransactionRepository) (t : Transaction) :
    TransactionRepository :=
  repo.save t

end TransactionService

namespace BalanceService

/-- Models `calculateBalance`: the sum of all amounts, in order. -/
def calculateBalance (repo : TransactionRepository) : Decimal :=
  repo.findAll.foldl (fun s t => s + t.amount) 0

end BalanceService

namespace ReportService

/-- The placeholder name of the entry for transactions without category. -/
def uncategorized : Str := "Uncategorized".toList

/-- The loop body of the category breakdowns:
`name = t.category ? t.category->name : "Uncategorized"`, then
`out[name] += t.amount < 0 ? -t.amount : t.amount`. -/
def accumulate (out : StdMap Decimal) (t : Transaction) : StdMap Decimal :=
  let name : Str := match t.category with
    | some c => c.obj.name
    | none => uncategorized
  StdMap.addTo out name (if Double.lt t.amount 0 then -t.amount else t.amount)

/-- The loop body of the income and expense totals:
`if (t.amount >= 0) income += t.amount; else expense += -t.amount;`. -/
def tally (acc : Decimal × Decimal) (t : Transaction) : Decimal × Decimal :=
  if Double.ge t.amount 0 then (acc.1 + t.amount, acc.2) else (acc.1, acc.2 + -t.amount)

/-- Models `categoryBreakdown(year, month)`. -/
def categoryBreakdown (localtime : LocalTime) (repo : TransactionRepository)
    (year month : Int) : StdMap Decimal :=
  (repo.findByUserAndMonth localtime [] year month).foldl accumulate []

/-- Models `incomeExpenseTotalsMonth(year, month)`: the pair (income, expense). -/
def incomeExpenseTotalsMonth (localtime : LocalTime) (repo : TransactionRepository)
    (year month : Int) : Decimal × Decimal :=
  (repo.findByUserAndMonth localtime [] year month).foldl tally (0, 0)

/-- Models `incomeExpenseTotalsYear(year)`: the pair (income, expense). -/
def incomeExpenseTotalsYear (localtime : LocalTime) (repo : TransactionRepository)
    (year : Int) : Decimal × Decimal :=
  repo.findAll.foldl
    (fun acc t =>
      if (localtime (to_time_t t.date)).tm_year + 1900 = year then tally acc t else acc)
    (0, 0)

/-- Models `categoryBreakdownYear(year)`. -/
def categoryBreakdownYear (localtime : LocalTime) (repo : TransactionRepository)
    (year : Int) : StdMap Decimal :=
  repo.findAll.foldl
    (fun out t =>
      if (localtime (to_time_t t.date)).tm_year + 1900 = year then accumulate out t else out)
    []

/-- Models `categoryBreakdownAll()`. -/
def categoryBreakdownAll (repo : TransactionRepository) : StdMap Decimal :=
  repo.findAll.foldl accumulate []

end ReportService

/-! ## Reachable states -/

/-- The Category Store states reachable from the empty store by `save`,
`remove` and `loadFromCsv`; the allocation counter at each call is whatever
the rest of the program has left it at. -/
inductive CategoryRepository.Reachable : CategoryRepository → Prop where
  | empty : Reachable CategoryRepository.empty
  | save (repo : CategoryRepository) (heap : Heap) (c : Category) :
      Reachable repo → Reachable (repo.save heap c).2.1
  | remove (repo : CategoryRepository) (name : Str) :
      Reachable repo → Reachable (repo.remove name).2
  | loadFromCsv (repo : CategoryRepository) (heap : Heap) (file : Option Str) :
      Reachable repo → Reachable (repo.loadFromCsv heap file).1

/-- The two stores, the allocation counter, and the categorizer once it has
been constructed. -/
structure World where
  heap : Heap
  catRepo : CategoryRepository
  txnRepo : TransactionRepository
  categorizer : Option CategorizerService

/-- The states reachable from empty stores by: `CategoryRepository::save`;
`CategoryRepository::remove` followed by `TransactionRepository::clearCategory`
of the same name; constructing the `CategorizerService`;
`TransactionService::importTransactions` of uncategorized transactions; and
`TransactionRepository::loadFromCsv` with the Category Store as resolver. -/
inductive Reachable : World → Prop where
  | init (heap : Heap) : Reachable ⟨heap, CategoryRepository.empty, TransactionRepository.empty, none⟩
  | save (w : World) (c : Category) : Reachable w →
      Reachable { w with catRepo := (w.catRepo.save w.heap c).2.1
                         heap := (w.catRepo.save w.heap c).2.2 }
  | removeCascade (w : World) (name : Str) : Reachable w →
      Reachable { w with catRepo := (w.catRepo.remove name).2
                         txnRepo := w.txnRepo.clearCategory name }
  | construct (w : World) : Reachable w →
      Reachable { w with categorizer := some (CategorizerService.new w.catRepo w.heap).1
                         catRepo := (CategorizerService.new w.catRepo w.heap).2.1
                         heap := (CategorizerService.new w.catRepo w.heap).2.2 }
  | importTransactions (w : World) (svc : CategorizerService) (txns : List Transaction)
      (confidenceThreshold : Confidence) : Reachable w → w.categorizer = some svc →
      (∀ t ∈ txns, t.category = none) →
      Reachable { w with txnRepo :=
        TransactionService.importTransactions svc w.catRepo w.txnRepo txns confidenceThreshold }
  | loadFromCsv (w : World) (dt : DecimalText) (clock : Nat → TimePoint) (file : Option Str) :
      Reachable w →
      Reachable { w with txnRepo :=
        w.txnRepo.loadFromCsv dt clock file (some w.catRepo) }

/-- The reachable states in whose trace no `save` replaces a category that a
transaction references: at each `save` of a category, the Category Store
holds nothing under its name or no transaction references a category of that
name.  The other steps are those of `Reachable`. -/
inductive ReachableWithoutOverwrite : World → Prop where
  | init (heap : Heap) :
      ReachableWithoutOverwrite ⟨heap, CategoryRepository.empty, TransactionRepository.empty, none⟩
  | save (w : World) (c : Category) : ReachableWithoutOverwrite w →
      (w.catRepo.findByName c.name = none ∨
        ∀ t ∈ w.txnRepo.findAll, ∀ d, t.category = some d → d.obj.name ≠ c.name) →
      ReachableWithoutOverwrite { w with catRepo := (w.catRepo.save w.heap c).2.1
                                         heap := (w.catRepo.save w.heap c).2.2 }
  | removeCascade (w : World) (name : Str) : ReachableWithoutOverwrite w →
      ReachableWithoutOverwrite { w with catRepo := (w.catRepo.remove name).2
                                         txnRepo := w.txnRepo.clearCategory name }
  | construct (w : World) : ReachableWithoutOverwrite w →
      ReachableWithoutOverwrite
        { w with categorizer := some (CategorizerService.new w.catRepo w.heap).1
                 catRepo := (CategorizerService.new w.catRepo w.heap).2.1
                 heap := (CategorizerService.new w.catRepo w.heap).2.2 }
  | importTransactions (w : World) (svc : CategorizerService) (txns : List Transaction)
      (confidenceThreshold : Confidence) : ReachableWithoutOverwrite w →
      w.categorizer = some svc → (∀ t ∈ txns, t.category = none) →
      ReachableWithoutOverwrite
        { w with txnRepo :=
            TransactionService.importTransactions svc w.catRepo w.txnRepo txns
                    confidenceThreshold }
  | loadFromCsv (w : World) (dt : DecimalText) (clock : Nat → TimePoint) (file : Option Str) :
      ReachableWithoutOverwrite w →
      ReachableWithoutOverwrite
        { w with txnRepo := w.txnRepo.loadFromCsv dt clock file (some w.catRepo) }

/-- Every entry of `byName` is stored under the name of its category. -/
def CategoryRepository.KeyedByName (repo : CategoryRepository) : Prop :=
  ∀ e ∈ repo.byName, e.2.obj.name = e.1

/-- A stand-in for the text form of a `double`, for traces in which no amount
matters: every amount is written as `0`, and nothing parses. -/
def zeroText : DecimalText := ⟨fun _ => "0".toList, fun _ => none⟩

/-- A category named Food, as first saved. -/
def foodExpense : Category := ⟨"c_1".toList, "Food".toList, CategoryType.Expense⟩

/-- A second category named Food, saved over the first. -/
def foodIncome : Category := ⟨"c_2".toList, "Food".toList, CategoryType.Income⟩

/-- A transactions file with one record, whose category name is Food. -/
def foodFile : Str :=
  TransactionRepository.record zeroText
    ⟨"t1".toList, 0, 0, "shop".toList, some ⟨0, foodExpense⟩, []⟩

/-- Empty stores, allocation counter at 0. -/
def World.start : World := ⟨0, CategoryRepository.empty, TransactionRepository.empty, none⟩

/-- After `save(foodExpense)`. -/
def World.afterSave : World :=
  { World.start with
    catRepo := (World.start.catRepo.save World.start.heap foodExpense).2.1
    heap := (World.start.catRepo.save World.start.heap foodExpense).2.2 }

/-- After then loading `foodFile` with the Category Store as resolver. -/
def World.afterLoad : World :=
  { World.afterSave with
    txnRepo := World.afterSave.txnRepo.loadFromCsv zeroText (fun _ => 0) (some foodFile)
      (some World.afterSave.catRepo) }

/-- After then `save(foodIncome)`, which overwrites the name Food. -/
def World.afterOverwrite : World :=
  { World.afterLoad with
    catRepo := (World.afterLoad.catRepo.save World.afterLoad.heap foodIncome).2.1
    heap := (World.afterLoad.catRepo.save World.afterLoad.heap foodIncome).2.2 }

/-- A transaction whose merchant holds a comma. -/
def commaMerchant : Transaction :=
  ⟨"t1".toList, 5, 0, "a,b".toList, none, []⟩

/-- A category whose name holds a comma. -/
def commaCategory : Category := ⟨"1".toList, "a,b".toList, CategoryType.Income⟩

/-- The reference invariant as claimed: every category reference is null or is
the very pointer the Category Store holds under the referenced name. -/
def World.refsAreStored (w : World) : Prop :=
  ∀ t ∈ w.txnRepo.findAll, ∀ c, t.category = some c →
    w.catRepo.findByName c.obj.name = some c

/-- The reference invariant that holds: every category reference is null or
carries a name under which the Category Store holds a category of that
name. -/
def World.refsAreNamed (w : World) : Prop :=
  ∀ t ∈ w.txnRepo.findAll, ∀ c, t.category = some c →
    ∃ d, w.catRepo.findByName c.obj.name = some d ∧ d.obj.name = c.obj.name

/-! ## The claims as stated, and the inputs of the counterexamples -/

/-- Whether a keyword occurs as a substring of the merchant or of the notes. -/
abbrev CategorizerService.occurs (t : Transaction) (kw : Str) : Prop :=
  kw <:+: t.merchant ∨ kw <:+: t.notes

/-- The rule of `autoCategorize` as claimed: the first keyword in scan order
that occurs in the transaction decides, and the result is a category of the
name mapped from that keyword, with confidence 0.95. -/
def CategorizerService.firstMatchRule (svc : CategorizerService)
    (catRepo : CategoryRepository) (t : Transaction) : Prop :=
  ∀ (pre post : List (Str × Str)) (kv : Str × Str),
    svc.keywordToCategory = pre ++ kv :: post →
    (∀ k ∈ pre, ¬ CategorizerService.occurs t k.1) →
    CategorizerService.occurs t kv.1 →
    ∃ c : CategoryPtr, c.obj.name = kv.2 ∧ svc.autoCategorize catRepo t = (some c, 95 / 100)

/-- The store on which a categorizer was constructed (from empty) and from
which Transport was then removed. -/
def storeWithoutTransport : CategoryRepository :=
  ((CategorizerService.new CategoryRepository.empty 0).2.1.remove "Transport".toList).2

/-- A transaction whose merchant holds the keywords bus and lunch. -/
def busLunch : Transaction := ⟨"t1".toList, 0, 0, "bus lunch".toList, none, []⟩

/-- What `importTransactions` stores for an input `t`, as claimed: `u` carries
the proposed category when one was proposed with confidence at least the
threshold, and is uncategorized otherwise. -/
def TransactionService.storesAsClaimed (svc : CategorizerService)
    (catRepo : CategoryRepository) (confidenceThreshold : Confidence)
    (t u : Transaction) : Prop :=
  ((svc.autoCategorize catRepo t).1.isSome = true ∧
      (svc.autoCategorize catRepo t).2 ≥ confidenceThreshold →
    u.category = (svc.autoCategorize catRepo t).1) ∧
  (¬ ((svc.autoCategorize catRepo t).1.isSome = true ∧
      (svc.autoCategorize catRepo t).2 ≥ confidenceThreshold) →
    u.category = none)

/-- The Food category the constructor seeds. -/
def seededFood : Category := ⟨"c_food".toList, "Food".toList, CategoryType.Expense⟩

/-- A transaction that matches no keyword and already references the seeded
Food category (allocated at address 0). -/
def categorizedCoffee : Transaction :=
  ⟨"t1".toList, 0, 0, "coffee".toList, some ⟨0, seededFood⟩, []⟩

/-- The calendar year of a broken-down time: `tm_year` counts the years from
1900. -/
def Tm.year (tm : Tm) : Int := tm.tm_year + 1900

/-- The calendar month of a broken-down time, 1 to 12: `tm_mon` counts the
months from January as 0. -/
def Tm.month (tm : Tm) : Int := tm.tm_mon + 1

/-- The local calendar of a process whose time zone is UTC: the year and the
month of the day that holds the second `s` since the epoch. -/
def utc : LocalTime := fun s =>
  let z : Int := s / 86400 + 719468
  let era : Int := z / 146097
  let doe : Int := z - era * 146097
  let yoe : Int := (doe - doe / 1460 + doe / 36524 - doe / 146096) / 365
  let doy : Int := doe - (365 * yoe + yoe / 4 - yoe / 100)
  let mp : Int := (5 * doy + 2) / 153
  let m : Int := if mp < 10 then mp + 3 else mp - 9
  let y : Int := yoe + era * 400 + (if m ≤ 2 then 1 else 0)
  ⟨y - 1900, m - 1⟩

namespace Double

/-- The absolute value of a double. -/
def abs : Double → Double
  | finite q => finite |q|
  | negZero => finite 0
  | inf _ => inf false
  | nan => nan

/-- The sum of a list of doubles as the program adds them up: from 0, one
addition per element, in the order of the list. -/
def sum (l : List Double) : Double := l.foldl (fun total x => total + x) 0

/-- A double that is neither below 0 nor the negative zero. -/
def nonneg : Double → Prop
  | finite q => 0 ≤ q
  | negZero => False
  | inf s => s = false
  | nan => True

end Double

namespace ReportService

/-- The window of a month: the transactions of the store, in store order,
whose date falls in the given year and month of the local calendar. -/
def monthWindow (localtime : LocalTime) (repo : TransactionRepository)
    (year month : Int) : List Transaction :=
  repo.findAll.filter fun t =>
    decide ((localtime (to_time_t t.date)).year = year ∧
      (localtime (to_time_t t.date)).month = month)

/-- The window of a year: the transactions of the store, in store order,
whose date falls in the given year of the local calendar. -/
def yearWindow (localtime : LocalTime) (repo : TransactionRepository)
    (year : Int) : List Transaction :=
  repo.findAll.filter fun t => decide ((localtime (to_time_t t.date)).year = year)

/-- The key under which a breakdown counts a transaction: the name of its
category, or the placeholder when it has none. -/
def label (t : Transaction) : Str :=
  match t.category with
  | some c => c.obj.name
  | none => uncategorized

/-- The sum of the absolute amounts of the transactions of a window that are
counted under the key `k`. -/
def labelSum (window : List Transaction) (k : Str) : Decimal :=
  Double.sum ((window.filter fun t => decide (label t = k)).map fun t => t.amount.abs)

/-- The sum of the absolute amounts of the transactions of a window whose
category is named `n`. -/
def namedSum (window : List Transaction) (n : Str) : Decimal :=
  Double.sum ((window.filter fun t =>
      match t.category with
      | some c => decide (c.obj.name = n)
      | none => false).map fun t => t.amount.abs)

/-- The sum of the absolute amounts of the transactions of a window that have
no category reference. -/
def nullSum (window : List Transaction) : Decimal :=
  Double.sum ((window.filter fun t => t.category.isNone).map fun t => t.amount.abs)

/-- The breakdown of a window as claimed: every category name that occurs goes
to the sum over the transactions whose category has that name, and the
placeholder goes to the sum over the transactions without category. -/
def namesToSums (m : StdMap Decimal) (window : List Transaction) : Prop :=
  (∀ t ∈ window, ∀ c, t.category = some c →
    StdMap.find m c.obj.name = some (namedSum window c.obj.name)) ∧
  ((∃ t ∈ window, t.category = none) →
    StdMap.find m uncategorized = some (nullSum window))

/-- The breakdown of a window that holds: every key under which a transaction
of the window is counted goes to the sum over the transactions counted under
it, and no other key has an entry. -/
def labelsToSums (m : StdMap Decimal) (window : List Transaction) : Prop :=
  ∀ k : Str,
    ((∃ t ∈ window, label t = k) → StdMap.find m k = some (labelSum window k)) ∧
    ((¬ ∃ t ∈ window, label t = k) → StdMap.find m k = none)

/-- The income and expense of a list of amounts as claimed: the sum of those
that are at least 0, and the sum of the negated ones that are below 0. -/
def signSplit (amounts : List Decimal) : Decimal × Decimal :=
  (Double.sum (amounts.filter fun a => Double.ge a 0),
   Double.sum ((amounts.filter fun a => Double.lt a 0).map fun a => -a))

/-- The income and expense of a list of amounts that hold: the sum of those
that are at least 0, and the sum of the negated ones that are not (those
below 0, and every NaN). -/
def geSplit (amounts : List Decimal) : Decimal × Decimal :=
  (Double.sum (amounts.filter fun a => Double.ge a 0),
   Double.sum ((amounts.filter fun a => !Double.ge a 0).map fun a => -a))

end ReportService

/-- A category that is itself named like the placeholder. -/
def placeholderNamed : Category := ⟨"c_9".toList, "Uncategorized".toList, CategoryType.Expense⟩

/-- A store with a transaction of amount -5 in the category named
Uncategorized and a transaction of amount -7 without category. -/
def placeholderClash : TransactionRepository :=
  ⟨[⟨"t1".toList, -5, 0, "shop".toList, some ⟨0, placeholderNamed⟩, []⟩,
    ⟨"t2".toList, -7, 0, "shop".toList, none, []⟩]⟩

/-- The Salary category the constructor seeds. -/
def seededSalary : Category := ⟨"c_salary".toList, "Salary".toList, CategoryType.Income⟩

/-- The store of the aggregation example, 100 in Salary, -40 in Food and -10
without category, all at the instant `date`, together with a transaction of
-300 in Food at the instant `other`. -/
def exampleStore (date other : TimePoint) : TransactionRepository :=
  ⟨[⟨"t1".toList, 100, date, "employer".toList, some ⟨2, seededSalary⟩, []⟩,
    ⟨"t0".toList, -300, other, "grocer".toList, some ⟨0, seededFood⟩, []⟩,
    ⟨"t2".toList, -40, date, "canteen".toList, some ⟨0, seededFood⟩, []⟩,
    ⟨"t3".toList, -10, date, "kiosk".toList, none, []⟩]⟩

/-- The first instant of February 1970 in UTC. -/
def february1970 : TimePoint := from_time_t 2678400

/-- A store with an amount of 100 and an amount that is a NaN (`std::stod`
reads the text `nan` as one), both at the epoch. -/
def nanStore : TransactionRepository :=
  ⟨[⟨"t1".toList, 100, 0, "employer".toList, none, []⟩,
    ⟨"t2".toList, Double.nan, 0, "shop".toList, none, []⟩]⟩

/-- The category name recorded in a transaction record: its fifth field,
unescaped. -/
def TransactionRepository.recordedName (line : Str) : Str :=
  unescapeCsv ((splitCsvLine line).getD 4 [])

/-- The category reference of the transaction `u` loaded from the record
`line`, case by case: the category the resolver finds under the recorded name
when a resolver is supplied, the name is non-empty and it is found; null in
every other case. -/
def TransactionRepository.resolvedAs (catRepo : Option CategoryRepository)
    (line : Str) (u : Transaction) : Prop :=
  (∀ (cr : CategoryRepository) (c : CategoryPtr), catRepo = some cr →
    TransactionRepository.recordedName line ≠ [] →
    cr.findByName (TransactionRepository.recordedName line) = some c →
    u.category = some c) ∧
  ((catRepo = none ∨ TransactionRepository.recordedName line = [] ∨
      ∃ cr, catRepo = some cr ∧
        cr.findByName (TransactionRepository.recordedName line) = none) →
    u.category = none)

/-- The category that a record of a categories file with at least 3 fields
holds: unescaped id and name, and the kind read from the third field. -/
def CategoryRepository.parseRecord (line : Str) : Category :=
  { categoryId := unescapeCsv ((splitCsvLine line).getD 0 [])
    name := unescapeCsv ((splitCsvLine line).getD 1 [])
    type := if (stoi ((splitCsvLine line).getD 2 [])).getD 0 = 1 then CategoryType.Income
      else CategoryType.Expense }

/-- A text that holds the given lines, each ended by a line feed. -/
def unlines (lines : List Str) : Str :=
  lines.foldr (fun l out => l ++ newline :: out) []

/-- Whether a string is a non-empty run of decimal digits. -/
def digitsOnly (ds : Str) : Bool := !ds.isEmpty && ds.all Char.isDigit

/-- The integer that a field is, when the whole field is a decimal integer: an
optional sign followed by digits and nothing else; `none` for any other
text. -/
def integerText (s : Str) : Option Int :=
  match s with
  | [] => none
  | c :: r =>
    if c = Char.ofNat 45 then
      (if digitsOnly r then some (-(digitsValue 0 r : Int)) else none)
    else if c = Char.ofNat 43 then
      (if digitsOnly r then some (digitsValue 0 r : Int) else none)
    else if digitsOnly (c :: r) then some (digitsValue 0 (c :: r) : Int) else none

/-- The third field of a record. -/
def thirdField (line : Str) : Str := (splitCsvLine line).getD 2 []

/-- The kind of the category loaded from a record, as claimed: Income only
when the third field is the integer 1, Expense when it is no integer and when
it is another integer. -/
def CategoryRepository.kindAsClaimed (line : Str) : Prop :=
  ((CategoryRepository.parseRecord line).type = CategoryType.Income →
    integerText (thirdField line) = some 1) ∧
  (integerText (thirdField line) = none →
    (CategoryRepository.parseRecord line).type = CategoryType.Expense) ∧
  (∀ n : Int, integerText (thirdField line) = some n → n ≠ 1 →
    (CategoryRepository.parseRecord line).type = CategoryType.Expense)

/-- A record whose third field starts with the digit 1 and goes on with
letters. -/
def trailingTextRecord : Str := "7,Pay,1abc".toList

/-- A record of `CategoryRepository::saveToCsv` without the line feed that
ends it. -/
def CategoryRepository.recordLine (c : Category) : Str :=
  quoted c.categoryId ++ comma :: (quoted c.name ++ comma :: showInt c.type.toInt)

/-- A string that holds neither a comma nor a line feed. -/
def delimiterFree (s : Str) : Prop := comma ∉ s ∧ newline ∉ s

/-- A store whose ids and names hold quote characters and an empty string: the
category with id `c"1`, name `say "hi"` and kind Income, and the category with
empty id and empty name and kind Expense. -/
def quotedStore : CategoryRepository :=
  ((CategoryRepository.empty.save 0
      ⟨[Char.ofNat 99, dquote, Char.ofNat 49],
        "say ".toList ++ dquote :: "hi".toList ++ [dquote], CategoryType.Income⟩).2.1.save 1
      ⟨[], [], CategoryType.Expense⟩).2.1

/-! ## Theorems -/

/-! ### The order on strings -/

theorem strLt_irrefl (a : Str) : strLt a a = false := by
  induction a with
  | nil => rfl
  | cons c cs ih => simp [strLt, ih]

theorem strLt_trans : ∀ (a b c : Str), strLt a b = true → strLt b c = true → strLt a c = true
  | [], [], _, h, _ => by simp [strLt] at h
  | [], _ :: _, [], _, h => by simp [strLt] at h
  | [], _ :: _, _ :: _, _, _ => by simp [strLt]
  | _ :: _, [], _, h, _ => by simp [strLt] at h
  | _ :: _, _ :: _, [], _, h => by simp [strLt] at h
  | x :: xs, y :: ys, z :: zs, h1, h2 => by
    simp only [strLt] at h1 h2 ⊢
    by_cases hxy : x < y
    · by_cases hyz : y < z
      · simp [lt_trans hxy hyz]
      · simp only [hyz, if_false] at h2
        by_cases hzy : z < y
        · simp [hzy] at h2
        · have : y = z := le_antisymm (not_lt.mp hzy) (not_lt.mp hyz)
          subst this; simp [hxy]
    · simp only [hxy, if_false] at h1
      by_cases hyx : y < x
      · simp [hyx] at h1
      · simp only [hyx, if_false] at h1
        have : x = y := le_antisymm (not_lt.mp hyx) (not_lt.mp hxy)
        subst this
        by_cases hyz : x < z
        · simp [hyz]
        · simp only [hyz, if_false] at h2 ⊢
          by_cases hzy : z < x
          · simp [hzy] at h2
          · simp only [hzy, if_false] at h2 ⊢
            exact strLt_trans xs ys zs h1 h2

theorem strLt_connex : ∀ (a b : Str), strLt a b = false → strLt b a = false → a = b
  | [], [], _, _ => rfl
  | [], _ :: _, h, _ => by simp [strLt] at h
  | _ :: _, [], _, h => by simp [strLt] at h
  | x :: xs, y :: ys, h1, h2 => by
    simp only [strLt] at h1 h2
    by_cases hxy : x < y
    · simp [hxy] at h1
    · by_cases hyx : y < x
      · simp [hyx] at h2
      · simp only [hxy, hyx, if_false] at h1 h2
        have : x = y := le_antisymm (not_lt.mp hyx) (not_lt.mp hxy)
        rw [this, strLt_connex xs ys h1 h2]


/-! ### The map operations -/

namespace StdMap

theorem find_insert {β : Type} (m : StdMap β) (k : Str) (v : β) (j : Str) :
    find (insert m k v) j = if j = k then some v else find m j := by
  induction m with
  | nil =>
    by_cases h : j = k
    · simp [insert, find, h]
    · have h2 : ¬ k = j := fun e => h e.symm
      simp [insert, find, h, h2]
  | cons e rest ih =>
    obtain ⟨k1, v1⟩ := e
    simp only [insert]
    by_cases h1 : strLt k k1 = true
    · simp only [h1, if_true]
      by_cases h : j = k
      · simp [find, h]
      · have h2 : ¬ k = j := fun e => h e.symm
        simp [find, h, h2]
    · simp only [h1]
      by_cases h3 : strLt k1 k = true
      · simp only [h3, if_true]
        have hne : k1 ≠ k := by
          intro e; rw [e, strLt_irrefl] at h3; simp at h3
        by_cases h : j = k
        · subst h
          simp [find, hne, ih]
        · by_cases h4 : k1 = j
          · simp [find, h4, h]
          · simp [find, h4, h, ih]
      · have hk : k = k1 :=
          strLt_connex k k1 (by simpa using h1) (by simpa using h3)
        subst hk
        simp only [h3, if_false]
        by_cases h : j = k
        · simp [find, h]
        · have h2 : ¬ k = j := fun e => h e.symm
          simp [find, h, h2]

theorem find_erase_of_ne {β : Type} (m : StdMap β) (k j : Str) (h : j ≠ k) :
    find (erase m k) j = find m j := by
  induction m with
  | nil => rfl
  | cons e rest ih =>
    obtain ⟨k1, v1⟩ := e
    simp only [erase]
    by_cases h1 : k1 = k
    · have h2 : ¬ k1 = j := fun e => h (e.symm.trans h1)
      simp [h1, find, h2]
      subst h1; simp [h2]
    · by_cases h2 : k1 = j
      · subst h2
        simp [h1, find]
      · simp [h1, find, h2, ih]

theorem find_eq_none_of_lt {β : Type} (m : StdMap β) (k : Str)
    (h : ∀ e ∈ m, strLt k e.1 = true) : find m k = none := by
  induction m with
  | nil => rfl
  | cons e rest ih =>
    obtain ⟨k1, v1⟩ := e
    have h1 : strLt k k1 = true := h (k1, v1) (List.mem_cons_self _ _)
    have hne : k1 ≠ k := by
      intro e; rw [e, strLt_irrefl] at h1; simp at h1
    simp only [find, hne, if_false]
    exact ih fun e he => h e (List.mem_cons_of_mem _ he)

theorem find_erase_self {β : Type} (m : StdMap β) (k : Str) (hm : WF m) :
    find (erase m k) k = none := by
  induction m with
  | nil => rfl
  | cons e rest ih =>
    obtain ⟨k1, v1⟩ := e
    have hm2 := List.pairwise_cons.mp hm
    simp only [erase]
    by_cases h1 : k1 = k
    · simp only [h1, if_true]
      exact find_eq_none_of_lt rest k fun e he => h1 ▸ hm2.1 e he
    · simp only [h1, if_false, find]
      exact ih hm2.2

theorem mem_insert {β : Type} (m : StdMap β) (k : Str) (v : β) (e : Str × β)
    (h : e ∈ insert m k v) : e = (k, v) ∨ e ∈ m := by
  induction m with
  | nil => simpa [insert] using h
  | cons e1 rest ih =>
    obtain ⟨k1, v1⟩ := e1
    simp only [insert] at h
    split at h
    · rcases List.mem_cons.mp h with h | h
      · exact Or.inl h
      · exact Or.inr h
    · split at h
      · rcases List.mem_cons.mp h with h | h
        · exact Or.inr (h ▸ List.mem_cons_self _ _)
        · rcases ih h with h | h
          · exact Or.inl h
          · exact Or.inr (List.mem_cons_of_mem _ h)
      · rcases List.mem_cons.mp h with h | h
        · exact Or.inl h
        · exact Or.inr (List.mem_cons_of_mem _ h)

theorem mem_erase {β : Type} (m : StdMap β) (k : Str) (e : Str × β)
    (h : e ∈ erase m k) : e ∈ m := by
  induction m with
  | nil => simp [erase] at h
  | cons e1 rest ih =>
    obtain ⟨k1, v1⟩ := e1
    simp only [erase] at h
    split at h
    · exact List.mem_cons_of_mem _ h
    · rcases List.mem_cons.mp h with h | h
      · exact h ▸ List.mem_cons_self _ _
      · exact List.mem_cons_of_mem _ (ih h)

theorem WF_insert {β : Type} (m : StdMap β) (k : Str) (v : β) (hm : WF m) :
    WF (insert m k v) := by
  induction m with
  | nil => simp [insert, WF]
  | cons e1 rest ih =>
    obtain ⟨k1, v1⟩ := e1
    have hm2 := List.pairwise_cons.mp hm
    simp only [insert]
    split
    · rename_i h1
      refine List.pairwise_cons.mpr ⟨?_, hm⟩
      intro e he
      rcases List.mem_cons.mp he with he | he
      · rw [he]; exact h1
      · exact strLt_trans _ _ _ h1 (hm2.1 e he)
    · split
      · rename_i h1 h3
        refine List.pairwise_cons.mpr ⟨?_, ih hm2.2⟩
        intro e he
        rcases mem_insert rest k v e he with he | he
        · rw [he]; exact h3
        · exact hm2.1 e he
      · rename_i h1 h3
        have hk : k = k1 :=
          strLt_connex k k1 (by simpa using h1) (by simpa using h3)
        subst hk
        exact List.pairwise_cons.mpr ⟨hm2.1, hm2.2⟩

theorem WF_erase {β : Type} (m : StdMap β) (k : Str) (hm : WF m) :
    WF (erase m k) := by
  induction m with
  | nil => simp [erase, WF]
  | cons e1 rest ih =>
    obtain ⟨k1, v1⟩ := e1
    have hm2 := List.pairwise_cons.mp hm
    simp only [erase]
    split
    · exact hm2.2
    · exact List.pairwise_cons.mpr ⟨fun e he => hm2.1 e (mem_erase rest k e he), ih hm2.2⟩

theorem mem_of_find {β : Type} (m : StdMap β) (k : Str) (v : β)
    (h : find m k = some v) : (k, v) ∈ m := by
  induction m with
  | nil => simp [find] at h
  | cons e1 rest ih =>
    obtain ⟨k1, v1⟩ := e1
    simp only [find] at h
    split at h
    · rename_i h1
      cases h; subst h1
      exact List.mem_cons_self _ _
    · exact List.mem_cons_of_mem _ (ih h)

end StdMap

/-! ### Tokens never hold the delimiter -/

theorem getlineAll_no_delim (d : Char) (s : Str) :
    ∀ tok ∈ getlineAll d s, d ∉ tok := by
  induction s with
  | nil => simp [getlineAll]
  | cons c cs ih =>
    intro tok htok
    simp only [getlineAll] at htok
    split at htok
    · rcases List.mem_cons.mp htok with h | h
      · simp [h]
      · exact ih tok h
    · rename_i hc
      split at htok
      · simp only [List.mem_singleton] at htok
        subst htok
        simpa using fun e => hc e.symm
      · rename_i t ts heq
        rcases List.mem_cons.mp htok with h | h
        · subst h
          have := ih t (by rw [heq]; exact List.mem_cons_self _ _)
          simp only [List.mem_cons, not_or]
          exact ⟨fun e => hc e.symm, this⟩
        · exact ih tok (by rw [heq]; exact List.mem_cons_of_mem _ h)

theorem mem_of_mem_trimQuotes (x : Char) (t : Str) (h : x ∈ trimQuotes t) : x ∈ t := by
  unfold trimQuotes at h
  have key : ∀ u : Str, x ∈ (if u.getLast? = some dquote then u.dropLast else u) → x ∈ u := by
    intro u hu
    split at hu
    · exact List.mem_of_mem_dropLast hu
    · exact hu
  cases t with
  | nil => simpa using key _ h
  | cons c cs =>
    have h2 := key _ h
    simp only at h2
    split at h2
    · exact List.mem_cons_of_mem _ h2
    · exact h2

theorem mem_of_mem_unescapeCsv (x : Char) : ∀ (s : Str), x ∈ unescapeCsv s → x ∈ s
  | [], h => by simp [unescapeCsv] at h
  | [c], h => by simpa [unescapeCsv] using h
  | c :: d :: rest, h => by
    simp only [unescapeCsv] at h
    split at h
    · rename_i hq
      rcases List.mem_cons.mp h with h | h
      · rw [h, ← hq.1]; exact List.mem_cons_self _ _
      · exact List.mem_cons_of_mem _ (List.mem_cons_of_mem _ (mem_of_mem_unescapeCsv x rest h))
    · rcases List.mem_cons.mp h with h | h
      · rw [h]; exact List.mem_cons_self _ _
      · exact List.mem_cons_of_mem _ (mem_of_mem_unescapeCsv x (d :: rest) h)

theorem splitCsvLine_no_comma (line : Str) : ∀ p ∈ splitCsvLine line, comma ∉ unescapeCsv p := by
  intro p hp hc
  simp only [splitCsvLine, List.mem_map] at hp
  obtain ⟨tok, htok, rfl⟩ := hp
  exact getlineAll_no_delim comma line tok htok
    (mem_of_mem_trimQuotes _ _ (mem_of_mem_unescapeCsv _ _ hc))

namespace TransactionRepository

theorem loadLine_merchant (dt : DecimalText) (clock : Nat → TimePoint)
    (catRepo : Option CategoryRepository) (repo : TransactionRepository) (line : Str) :
    ∀ t ∈ (loadLine dt clock catRepo repo line).txns, t ∈ repo.txns ∨ comma ∉ t.merchant := by
  intro t ht
  unfold loadLine at ht
  split at ht
  · exact Or.inl ht
  · split at ht
    · rename_i p0 p1 p2 p3 p4 p5 rest heq
      simp only [List.mem_append, List.mem_singleton] at ht
      rcases ht with ht | ht
      · exact Or.inl ht
      · right
        subst ht
        exact splitCsvLine_no_comma line p3 (by rw [heq]; simp)
    · exact Or.inl ht

theorem loadLines_merchant (dt : DecimalText) (clock : Nat → TimePoint)
    (catRepo : Option CategoryRepository) (lines : List Str) :
    ∀ (repo : TransactionRepository),
    ∀ t ∈ (lines.foldl (loadLine dt clock catRepo) repo).txns,
      t ∈ repo.txns ∨ comma ∉ t.merchant := by
  induction lines with
  | nil => intro repo t ht; exact Or.inl ht
  | cons l ls ih =>
    intro repo t ht
    rcases ih _ t ht with h | h
    · exact loadLine_merchant dt clock catRepo repo l t h
    · exact Or.inr h

theorem loadFromCsv_merchant (dt : DecimalText) (clock : Nat → TimePoint)
    (catRepo : Option CategoryRepository) (repo : TransactionRepository) (file : Option Str) :
    ∀ t ∈ (loadFromCsv dt clock repo file catRepo).txns,
      t ∈ repo.txns ∨ comma ∉ t.merchant := by
  cases file with
  | none => intro t ht; exact Or.inl ht
  | some text => exact loadLines_merchant dt clock catRepo _ repo

end TransactionRepository


/-! ### A trace that overwrites a referenced category -/

theorem afterOverwrite_reachable : Reachable World.afterOverwrite :=
  Reachable.save _ _ (Reachable.loadFromCsv _ _ _ _ (Reachable.save _ _ (Reachable.init 0)))

theorem afterOverwrite_txns :
    World.afterOverwrite.txnRepo.findAll.map (fun t => t.category) = [some ⟨0, foodExpense⟩] := by
  decide

theorem afterOverwrite_find :
    World.afterOverwrite.catRepo.findByName "Food".toList = some ⟨1, foodIncome⟩ := by
  decide


/-! ### Invariants of the Category Store -/

namespace CategoryRepository

theorem findByName_save (repo : CategoryRepository) (heap : Heap) (c : Category) (m : Str) :
    (repo.save heap c).2.1.findByName m =
      if m = c.name then some (repo.save heap c).1 else repo.findByName m := by
  simp only [findByName, save]
  exact StdMap.find_insert repo.byName c.name _ m

theorem findByName_save_isSome (repo : CategoryRepository) (heap : Heap) (c : Category)
    (m : Str) (h : (repo.findByName m).isSome = true) :
    ((repo.save heap c).2.1.findByName m).isSome = true := by
  rw [findByName_save]
  split
  · rfl
  · exact h

theorem save_keyed (repo : CategoryRepository) (heap : Heap) (c : Category)
    (h : repo.KeyedByName) : (repo.save heap c).2.1.KeyedByName := by
  intro e he
  rcases StdMap.mem_insert repo.byName c.name _ e he with he | he
  · rw [he]; rfl
  · exact h e he

theorem save_WF (repo : CategoryRepository) (heap : Heap) (c : Category)
    (h : StdMap.WF repo.byName) : StdMap.WF (repo.save heap c).2.1.byName :=
  StdMap.WF_insert repo.byName c.name _ h

theorem remove_keyed (repo : CategoryRepository) (name : Str)
    (h : repo.KeyedByName) : (repo.remove name).2.KeyedByName := by
  unfold remove
  split
  · exact h
  · intro e he
    exact h e (StdMap.mem_erase repo.byName name e he)

theorem remove_WF (repo : CategoryRepository) (name : Str)
    (h : StdMap.WF repo.byName) : StdMap.WF (repo.remove name).2.byName := by
  unfold remove
  split
  · exact h
  · exact StdMap.WF_erase repo.byName name h

theorem findByName_remove_of_ne (repo : CategoryRepository) (name m : Str) (h : m ≠ name) :
    (repo.remove name).2.findByName m = repo.findByName m := by
  unfold remove
  split
  · rfl
  · exact StdMap.find_erase_of_ne repo.byName name m h

/-- What one line of `loadFromCsv` does: nothing, or one `save`. -/
theorem loadLine_cases (st : CategoryRepository × Heap) (line : Str) :
    loadLine st line = st ∨ ∃ c, loadLine st line = (st.1.save st.2 c).2 := by
  unfold loadLine
  split
  · exact Or.inl rfl
  · split
    · exact Or.inr ⟨_, rfl⟩
    · exact Or.inl rfl

/-- A property of the store that `save` keeps is kept by `loadFromCsv`. -/
theorem loadFromCsv_preserves (P : CategoryRepository → Prop)
    (hsave : ∀ repo heap c, P repo → P (repo.save heap c).2.1)
    (repo : CategoryRepository) (heap : Heap) (file : Option Str) (h : P repo) :
    P (repo.loadFromCsv heap file).1 := by
  cases file with
  | none => exact h
  | some text =>
    simp only [loadFromCsv]
    generalize getlineAll newline text = lines
    have key : ∀ (st : CategoryRepository × Heap), P st.1 → P (lines.foldl loadLine st).1 := by
      induction lines with
      | nil => intro st hst; exact hst
      | cons l ls ih =>
        intro st hst
        apply ih
        rcases loadLine_cases st l with h1 | ⟨c, h1⟩
        · rw [h1]; exact hst
        · rw [h1]; exact hsave _ _ _ hst
    exact key (repo, heap) h

theorem findByName_name (repo : CategoryRepository) (h : repo.KeyedByName) (n : Str)
    (c : CategoryPtr) (hc : repo.findByName n = some c) : c.obj.name = n :=
  h (n, c) (StdMap.mem_of_find repo.byName n c hc)

theorem reachable_keyed (repo : CategoryRepository) (h : Reachable repo) :
    StdMap.WF repo.byName ∧ repo.KeyedByName := by
  induction h with
  | empty => exact ⟨List.Pairwise.nil, fun e he => by simp [empty] at he⟩
  | save repo heap c _ ih => exact ⟨save_WF repo heap c ih.1, save_keyed repo heap c ih.2⟩
  | remove repo name _ ih => exact ⟨remove_WF repo name ih.1, remove_keyed repo name ih.2⟩
  | loadFromCsv repo heap file _ ih =>
    exact loadFromCsv_preserves (fun r => StdMap.WF r.byName ∧ r.KeyedByName)
      (fun r hp c hr => ⟨save_WF r hp c hr.1, save_keyed r hp c hr.2⟩) repo heap file ih

end CategoryRepository

namespace CategorizerService

theorem seed_cases (st : CategoryRepository × Heap) (c : Category) :
    seed st c = st ∨ seed st c = (st.1.save st.2 c).2 := by
  unfold seed
  split
  · exact Or.inl rfl
  · exact Or.inr rfl

/-- A property of the store that `save` keeps is kept by the constructor. -/
theorem new_preserves (P : CategoryRepository → Prop)
    (hsave : ∀ repo heap c, P repo → P (repo.save heap c).2.1)
    (repo : CategoryRepository) (heap : Heap) (h : P repo) :
    P (new repo heap).2.1 := by
  have step : ∀ (st : CategoryRepository × Heap) (c : Category), P st.1 → P (seed st c).1 := by
    intro st c hst
    rcases seed_cases st c with h1 | h1
    · rw [h1]; exact hst
    · rw [h1]; exact hsave _ _ _ hst
  simp only [new]
  exact step _ _ (step _ _ (step _ _ h))

theorem scan_some (catRepo : CategoryRepository) (t : Transaction) (kws : List (Str × Str))
    (c : CategoryPtr) (h : (scan catRepo t kws).1 = some c) :
    ∃ n, catRepo.findByName n = some c := by
  induction kws with
  | nil => simp [scan] at h
  | cons kv rest ih =>
    simp only [scan] at h
    split at h
    · split at h
      · rename_i d hd
        simp only [Option.some.injEq] at h
        exact ⟨kv.2, by rw [hd, h]⟩
      · exact ih h
    · exact ih h

end CategorizerService

/-! ### References made by import and load come from the Category Store -/

namespace TransactionService

theorem importOne_mem (svc : CategorizerService) (catRepo : CategoryRepository)
    (th : Confidence) (repo : TransactionRepository) (x : Transaction) :
    ∀ t ∈ (importOne svc catRepo th repo x).txns,
      t ∈ repo.txns ∨ t.category = x.category ∨
        ∃ c n, t.category = some c ∧ catRepo.findByName n = some c := by
  intro t ht
  simp only [importOne, TransactionRepository.save, List.mem_append, List.mem_singleton] at ht
  rcases ht with ht | ht
  · exact Or.inl ht
  · right
    subst ht
    split
    · rename_i c hc
      split
      · right
        obtain ⟨n, hn⟩ := CategorizerService.scan_some catRepo x svc.keywordToCategory c hc
        exact ⟨c, n, rfl, hn⟩
      · exact Or.inl rfl
    · exact Or.inl rfl

theorem importTransactions_mem (svc : CategorizerService) (catRepo : CategoryRepository)
    (th : Confidence) (txns : List Transaction) (hun : ∀ x ∈ txns, x.category = none) :
    ∀ (repo : TransactionRepository),
    ∀ t ∈ (importTransactions svc catRepo repo txns th).txns,
      t ∈ repo.txns ∨ t.category = none ∨
        ∃ c n, t.category = some c ∧ catRepo.findByName n = some c := by
  induction txns with
  | nil => intro repo t ht; exact Or.inl ht
  | cons x xs ih =>
    intro repo t ht
    have hx : x.category = none := hun x (List.mem_cons_self _ _)
    rcases ih (fun y hy => hun y (List.mem_cons_of_mem _ hy)) _ t ht with h | h
    · rcases importOne_mem svc catRepo th repo x t h with h | h | h
      · exact Or.inl h
      · exact Or.inr (Or.inl (h.trans hx))
      · exact Or.inr (Or.inr h)
    · exact Or.inr h

end TransactionService

namespace TransactionRepository

theorem loadLine_mem (dt : DecimalText) (clock : Nat → TimePoint)
    (cr : CategoryRepository) (repo : TransactionRepository) (line : Str) :
    ∀ t ∈ (loadLine dt clock (some cr) repo line).txns,
      t ∈ repo.txns ∨ t.category = none ∨
        ∃ c n, t.category = some c ∧ cr.findByName n = some c := by
  intro t ht
  unfold loadLine at ht
  split at ht
  · exact Or.inl ht
  · split at ht
    · rename_i p0 p1 p2 p3 p4 p5 rest heq
      simp only [List.mem_append, List.mem_singleton] at ht
      rcases ht with ht | ht
      · exact Or.inl ht
      · right
        subst ht
        simp only
        split
        · cases hf : cr.findByName (unescapeCsv p4) with
          | none => exact Or.inl rfl
          | some c => exact Or.inr ⟨c, _, rfl, hf⟩
        · exact Or.inl rfl
    · exact Or.inl ht

theorem loadFromCsv_mem (dt : DecimalText) (clock : Nat → TimePoint)
    (cr : CategoryRepository) (repo : TransactionRepository) (file : Option Str) :
    ∀ t ∈ (loadFromCsv dt clock repo file (some cr)).txns,
      t ∈ repo.txns ∨ t.category = none ∨
        ∃ c n, t.category = some c ∧ cr.findByName n = some c := by
  cases file with
  | none => intro t ht; exact Or.inl ht
  | some text =>
    simp only [loadFromCsv]
    generalize getlineAll newline text = lines
    induction lines generalizing repo with
    | nil => intro t ht; exact Or.inl ht
    | cons l ls ih =>
      intro t ht
      rcases ih _ t ht with h | h
      · exact loadLine_mem dt clock cr repo l t h
      · exact Or.inr h

theorem clearCategory_mem (repo : TransactionRepository) (name : Str) :
    ∀ t ∈ (repo.clearCategory name).txns, ∀ c, t.category = some c →
      c.obj.name ≠ name ∧ ∃ u ∈ repo.txns, u.category = some c := by
  intro t ht c hc
  simp only [clearCategory, List.mem_map] at ht
  obtain ⟨u, hu, rfl⟩ := ht
  unfold clearOne at hc
  split at hc
  · rename_i d hd
    split at hc
    · simp at hc
    · rename_i hne
      rw [hd] at hc
      cases hc
      exact ⟨hne, u, hu, hd⟩
  · rename_i hd
    rw [hd] at hc
    cases hc

end TransactionRepository

/-- The invariant behind the amended C3: the Category Store is keyed by name,
and every referenced name is a key of it. -/
theorem world_reachable_inv (w : World) (h : Reachable w) :
    w.catRepo.KeyedByName ∧
      ∀ t ∈ w.txnRepo.txns, ∀ c, t.category = some c →
        (w.catRepo.findByName c.obj.name).isSome = true := by
  have fresh : ∀ (cr : CategoryRepository), cr.KeyedByName →
      ∀ (c : CategoryPtr) (n : Str), cr.findByName n = some c →
        (cr.findByName c.obj.name).isSome = true := by
    intro cr hk c n hn
    rw [CategoryRepository.findByName_name cr hk n c hn, hn]; rfl
  induction h with
  | init heap =>
    exact ⟨fun e he => by simp [CategoryRepository.empty] at he,
      fun t ht => by simp [TransactionRepository.empty] at ht⟩
  | save w c _ ih =>
    exact ⟨CategoryRepository.save_keyed _ _ _ ih.1, fun t ht d hd =>
      CategoryRepository.findByName_save_isSome _ _ _ _ (ih.2 t ht d hd)⟩
  | removeCascade w name _ ih =>
    refine ⟨CategoryRepository.remove_keyed _ _ ih.1, fun t ht d hd => ?_⟩
    obtain ⟨hne, u, hu, hud⟩ := TransactionRepository.clearCategory_mem _ _ t ht d hd
    show ((w.catRepo.remove name).2.findByName d.obj.name).isSome = true
    rw [CategoryRepository.findByName_remove_of_ne _ _ _ hne]
    exact ih.2 u hu d hud
  | construct w _ ih =>
    refine ⟨CategorizerService.new_preserves _ (fun r hp c hr =>
      CategoryRepository.save_keyed r hp c hr) _ _ ih.1, fun t ht d hd => ?_⟩
    exact CategorizerService.new_preserves
      (fun r => (r.findByName d.obj.name).isSome = true)
      (fun r hp c hr => CategoryRepository.findByName_save_isSome r hp c _ hr)
      _ _ (ih.2 t ht d hd)
  | importTransactions w svc txns th _ _ hun ih =>
    refine ⟨ih.1, fun t ht d hd => ?_⟩
    rcases TransactionService.importTransactions_mem svc w.catRepo th txns hun _ t ht
      with h | h | ⟨c, n, hc, hn⟩
    · exact ih.2 t h d hd
    · rw [h] at hd; cases hd
    · rw [hc] at hd; cases hd
      exact fresh _ ih.1 _ n hn
  | loadFromCsv w dt clock file _ ih =>
    refine ⟨ih.1, fun t ht d hd => ?_⟩
    rcases TransactionRepository.loadFromCsv_mem dt clock w.catRepo _ file t ht
      with h | h | ⟨c, n, hc, hn⟩
    · exact ih.2 t h d hd
    · rw [h] at hd; cases hd
    · rw [hc] at hd; cases hd
      exact fresh _ ih.1 _ n hn


theorem clearOne_category (n : Str) (u : Transaction) (c : CategoryPtr)
    (h : (TransactionRepository.clearOne n u).category = some c) : c.obj.name ≠ n := by
  unfold TransactionRepository.clearOne at h
  cases hu : u.category with
  | none => simp [hu] at h
  | some d =>
    simp only [hu] at h
    split at h
    · simp at h
    · rename_i hne
      rw [hu] at h; cases h; exact hne


/-! ### Substring search -/

theorem startsWith_iff : ∀ (s kw : Str), startsWith s kw = true ↔ kw <+: s
  | _, [] => by simp [startsWith]
  | [], _ :: _ => by simp [startsWith]
  | c :: cs, k :: ks => by
    simp only [startsWith]
    by_cases h : c = k
    · subst h
      simp only [if_true, List.cons_prefix_cons, true_and]
      exact startsWith_iff cs ks
    · have h2 : ¬ k = c := fun e => h e.symm
      simp [h, List.cons_prefix_cons, h2]

theorem strFind_isSome_iff (s kw : Str) : (strFind s kw).isSome = true ↔ kw <:+: s := by
  induction s with
  | nil =>
    simp only [strFind]
    split
    · rename_i h
      simpa using ((startsWith_iff [] kw).mp h).isInfix
    · rename_i h
      simp only [Option.isSome_none, Bool.false_eq_true, false_iff]
      intro hin
      exact h ((startsWith_iff [] kw).mpr (by
        have := List.eq_nil_of_infix_nil hin
        subst this; exact List.prefix_rfl))
  | cons c cs ih =>
    simp only [strFind]
    split
    · rename_i h
      simpa using ((startsWith_iff (c :: cs) kw).mp h).isInfix
    · rename_i h
      rw [Option.isSome_map', ih, List.infix_cons_iff]
      constructor
      · exact Or.inr
      · rintro (hp | hi)
        · exact absurd ((startsWith_iff (c :: cs) kw).mpr hp) h
        · exact hi

namespace CategorizerService

theorem defaultKeywords_eq : defaultKeywords =
    [("bus".toList, "Transport".toList), ("eat".toList, "Food".toList),
     ("lunch".toList, "Food".toList), ("meal".toList, "Food".toList),
     ("salary".toList, "Salary".toList), ("subway".toList, "Transport".toList)] := by
  decide

theorem new_keywords (repo : CategoryRepository) (heap : Heap) :
    (new repo heap).1.keywordToCategory = defaultKeywords := rfl

theorem scan_skip (catRepo : CategoryRepository) (t : Transaction) (kv : Str × Str)
    (rest : List (Str × Str))
    (h : ((strFind t.merchant kv.1).isSome || (strFind t.notes kv.1).isSome) = false) :
    scan catRepo t (kv :: rest) = scan catRepo t rest := by
  simp [scan, h]

theorem scan_hit (catRepo : CategoryRepository) (t : Transaction) (kv : Str × Str)
    (rest : List (Str × Str)) (c : CategoryPtr)
    (h : ((strFind t.merchant kv.1).isSome || (strFind t.notes kv.1).isSome) = true)
    (hc : catRepo.findByName kv.2 = some c) :
    scan catRepo t (kv :: rest) = (some c, 95 / 100) := by
  simp [scan, h, hc]

theorem scan_none (catRepo : CategoryRepository) (t : Transaction) (kws : List (Str × Str))
    (h : ∀ kv ∈ kws, ¬ kv.1 <:+: t.merchant ∧ ¬ kv.1 <:+: t.notes) :
    scan catRepo t kws = (none, 0) := by
  induction kws with
  | nil => rfl
  | cons kv rest ih =>
    have h1 := h kv (List.mem_cons_self _ _)
    rw [scan_skip, ih fun kv2 hkv2 => h kv2 (List.mem_cons_of_mem _ hkv2)]
    rw [Bool.or_eq_false_iff]
    constructor
    · rw [← Bool.not_eq_true, strFind_isSome_iff]; exact h1.1
    · rw [← Bool.not_eq_true, strFind_isSome_iff]; exact h1.2

theorem seed_found (st : CategoryRepository × Heap) (c : Category) :
    ((seed st c).1.findByName c.name).isSome = true := by
  unfold seed
  split
  · rename_i d hd; rw [hd]; rfl
  · rw [CategoryRepository.findByName_save]; simp

theorem seed_keeps (st : CategoryRepository × Heap) (c : Category) (m : Str)
    (h : (st.1.findByName m).isSome = true) : ((seed st c).1.findByName m).isSome = true := by
  rcases seed_cases st c with h1 | h1
  · rw [h1]; exact h
  · rw [h1]; exact CategoryRepository.findByName_save_isSome _ _ _ _ h

theorem new_food (repo : CategoryRepository) (heap : Heap) :
    ((new repo heap).2.1.findByName "Food".toList).isSome = true := by
  simp only [new]
  exact seed_keeps _ _ _ (seed_keeps _ _ _ (seed_found (repo, heap)
    ⟨"c_food".toList, "Food".toList, CategoryType.Expense⟩))

end CategorizerService


/-! ### Names read from a categories file -/

namespace CategoryRepository

/-- What one line of `loadFromCsv` does, with the name it saves: nothing, or one
`save` of a category whose name holds no comma. -/
theorem loadLine_name (st : CategoryRepository × Heap) (line : Str) :
    loadLine st line = st ∨
      ∃ c : Category, comma ∉ c.name ∧ loadLine st line = (st.1.save st.2 c).2 := by
  unfold loadLine
  split
  · exact Or.inl rfl
  · split
    · rename_i p0 p1 p2 rest heq
      exact Or.inr ⟨_, splitCsvLine_no_comma line p1 (by rw [heq]; simp), rfl⟩
    · exact Or.inl rfl

/-- No category that `loadFromCsv` adds to a store has a comma in its name. -/
theorem loadFromCsv_names (repo : CategoryRepository) (heap : Heap) (file : Option Str)
    (h : ∀ e ∈ repo.byName, comma ∉ e.2.obj.name) :
    ∀ e ∈ (repo.loadFromCsv heap file).1.byName, comma ∉ e.2.obj.name := by
  cases file with
  | none => exact h
  | some text =>
    simp only [loadFromCsv]
    generalize getlineAll newline text = lines
    have key : ∀ (st : CategoryRepository × Heap),
        (∀ e ∈ st.1.byName, comma ∉ e.2.obj.name) →
        ∀ e ∈ (lines.foldl loadLine st).1.byName, comma ∉ e.2.obj.name := by
      induction lines with
      | nil => intro st hst; exact hst
      | cons l ls ih =>
        intro st hst
        apply ih
        rcases loadLine_name st l with h1 | ⟨c, hc, h1⟩
        · rw [h1]; exact hst
        · rw [h1]
          intro e he
          rcases StdMap.mem_insert st.1.byName c.name _ e he with he | he
          · rw [he]; exact hc
          · exact hst e he
    exact key (repo, heap) h

end CategoryRepository


/-! ### The scan of the categorizer -/

namespace CategorizerService

theorem occurs_iff (t : Transaction) (kw : Str) :
    ((strFind t.merchant kw).isSome || (strFind t.notes kw).isSome) = true ↔ occurs t kw := by
  rw [Bool.or_eq_true, strFind_isSome_iff, strFind_isSome_iff]

/-- The scan passes over every keyword that does not occur or whose category
the store does not hold. -/
theorem scan_append_of_passed (catRepo : CategoryRepository) (t : Transaction)
    (pre rest : List (Str × Str))
    (h : ∀ k ∈ pre, occurs t k.1 → catRepo.findByName k.2 = none) :
    scan catRepo t (pre ++ rest) = scan catRepo t rest := by
  induction pre with
  | nil => rfl
  | cons k ks ih =>
    have hk := h k (List.mem_cons_self _ _)
    have hks := ih fun k2 hk2 => h k2 (List.mem_cons_of_mem _ hk2)
    simp only [List.cons_append, scan]
    split
    · rename_i hocc
      rw [hk ((occurs_iff t k.1).mp hocc)]
      exact hks
    · exact hks

theorem scan_nil_of_passed (catRepo : CategoryRepository) (t : Transaction)
    (kws : List (Str × Str))
    (h : ∀ k ∈ kws, occurs t k.1 → catRepo.findByName k.2 = none) :
    scan catRepo t kws = (none, 0) := by
  have := scan_append_of_passed catRepo t kws [] h
  rwa [List.append_nil] at this

end CategorizerService


/-! ### Seeding by the constructor -/

namespace CategorizerService

/-- What a lookup returns after one seeding step: what it returned before,
or the freshly allocated default where its name was absent. -/
theorem findByName_seed (st : CategoryRepository × Heap) (c : Category) (m : Str) :
    (seed st c).1.findByName m =
      match st.1.findByName m with
      | some d => some d
      | none => if m = c.name then some ⟨st.2, c⟩ else none := by
  unfold seed
  cases hc : st.1.findByName c.name with
  | some d =>
    simp only
    cases hm : st.1.findByName m with
    | some e => rfl
    | none =>
      simp only
      split
      · rename_i heq
        rw [heq, hc] at hm
        cases hm
      · rfl
  | none =>
    simp only
    rw [CategoryRepository.findByName_save]
    split
    · rename_i heq
      rw [heq, hc]
      rfl
    · cases hm : st.1.findByName m with
      | some e => rfl
      | none => rfl

theorem seed_keeps_found (st : CategoryRepository × Heap) (c : Category) (m : Str)
    (d : CategoryPtr) (h : st.1.findByName m = some d) :
    (seed st c).1.findByName m = some d := by
  rw [findByName_seed, h]

theorem seed_new_found (st : CategoryRepository × Heap) (c : Category) (m : Str)
    (d : CategoryPtr) (h : (seed st c).1.findByName m = some d) :
    st.1.findByName m = some d ∨ (st.1.findByName m = none ∧ d.obj = c ∧ m = c.name) := by
  rw [findByName_seed] at h
  cases hm : st.1.findByName m with
  | some e => rw [hm] at h; exact Or.inl h
  | none =>
    rw [hm] at h
    simp only at h
    split at h
    · rename_i heq
      cases h
      exact Or.inr ⟨rfl, rfl, heq⟩
    · cases h

end CategorizerService


/-! ### One imported transaction -/

namespace TransactionService

theorem importOne_findAll (svc : CategorizerService) (catRepo : CategoryRepository)
    (th : Confidence) (repo : TransactionRepository) (t : Transaction) :
    ∃ u : Transaction, (importOne svc catRepo th repo t).findAll = repo.findAll ++ [u] ∧
      u.txnId = t.txnId ∧ u.amount = t.amount ∧ u.date = t.date ∧
      u.merchant = t.merchant ∧ u.notes = t.notes ∧
      (∀ c, (svc.autoCategorize catRepo t).1 = some c →
        (svc.autoCategorize catRepo t).2 ≥ th → u.category = some c) ∧
      ((svc.autoCategorize catRepo t).1 = none ∨ (svc.autoCategorize catRepo t).2 < th →
        u.category = t.category) := by
  simp only [importOne, TransactionRepository.save, TransactionRepository.findAll]
  split
  · rename_i d hres
    rw [hres]
    by_cases hth : (svc.autoCategorize catRepo t).2 ≥ th
    · refine ⟨{ t with category := some d }, ?_, rfl, rfl, rfl, rfl, rfl, ?_, ?_⟩
      · simp [hth]
      · intro c hc _
        cases hc; rfl
      · rintro (h | h)
        · cases h
        · exact absurd hth (not_le.mpr h)
    · refine ⟨t, ?_, rfl, rfl, rfl, rfl, rfl, ?_, fun _ => rfl⟩
      · simp [hth]
      · intro c _ h
        exact absurd h hth
  · rename_i hres
    rw [hres]
    refine ⟨t, rfl, rfl, rfl, rfl, rfl, rfl, ?_, fun _ => rfl⟩
    intro c hc
    cases hc

end TransactionService


/-! ### The breakdowns -/

theorem foldl_if_eq_foldl_filter {α β : Type} (p : α → Prop) [DecidablePred p]
    (f : β → α → β) (l : List α) (init : β) :
    l.foldl (fun acc x => if p x then f acc x else acc) init
      = (l.filter fun x => decide (p x)).foldl f init := by
  induction l generalizing init with
  | nil => rfl
  | cons x xs ih =>
    by_cases hx : p x
    · simp [List.filter_cons, hx, ih]
    · simp [List.filter_cons, hx, ih]

namespace Double

theorem zero_eq : (0 : Double) = finite 0 := by decide!

theorem pow2_pos (e : Int) : 0 < pow2 e := by
  unfold pow2
  split
  · positivity
  · positivity

/-- Rounding a number that is not below 0 gives neither a negative double nor
the negative zero. -/
theorem round_nonneg (q : ℚ) (h : 0 ≤ q) : nonneg (round q) := by
  have hq : ¬ q < 0 := not_lt.mpr h
  rw [round]
  by_cases hr : representable q = true
  · rw [if_pos hr]; exact h
  · rw [if_neg hr]
    simp only [hq, decide_False, if_false]
    have key : ∀ v : ℚ, 0 ≤ v →
        nonneg (if pow2 1024 ≤ v then inf false else if v = 0 then finite 0 else finite v) := by
      intro v hv
      split
      · rfl
      · split
        · exact le_refl (0 : ℚ)
        · exact hv
    have hfloor : (0 : Int) ≤ ⌊|q| / pow2 (max (floorLog2 |q| - 52) (-1074))⌋ :=
      Int.floor_nonneg.mpr (div_nonneg (abs_nonneg q) (pow2_pos _).le)
    apply key
    apply mul_nonneg _ (pow2_pos _).le
    split
    · exact Int.cast_nonneg.mpr (by omega)
    · exact Int.cast_nonneg.mpr hfloor

/-- What a breakdown adds to an entry, the amount negated when it is below 0 and
the amount itself otherwise, adds as much as the absolute amount. -/
theorem add_magnitude (v a : Double) (hv : nonneg v) :
    v + (if lt a 0 then -a else a) = v + abs a ∧ nonneg (v + abs a) := by
  rw [zero_eq]
  cases a with
  | finite q =>
    have hmag : (if lt (finite q) (finite 0) then -(finite q) else finite q) = finite |q| := by
      by_cases hq : q < 0
      · have hne : q ≠ 0 := ne_of_lt hq
        simp only [lt, hq, decide_True, if_true]
        show neg (finite q) = _
        simp only [neg, hne, if_false, abs_of_neg hq]
      · simp only [lt, hq, decide_False, Bool.false_eq_true, if_false,
          abs_of_nonneg (not_lt.mp hq)]
    rw [hmag]
    refine ⟨rfl, ?_⟩
    cases v with
    | finite p => exact round_nonneg _ (add_nonneg hv (abs_nonneg q))
    | negZero => exact hv.elim
    | inf s => cases hv; rfl
    | nan => trivial
  | negZero =>
    have hmag : (if lt negZero (finite 0) then -negZero else negZero) = negZero := by
      simp [lt]
    rw [hmag]
    cases v with
    | finite p =>
      refine ⟨?_, ?_⟩
      · show round p = round (p + 0)
        rw [add_zero]
      · show nonneg (round (p + |0|))
        exact round_nonneg _ (add_nonneg hv (abs_nonneg 0))
    | negZero => exact hv.elim
    | inf s => cases hv; exact ⟨rfl, rfl⟩
    | nan => exact ⟨rfl, trivial⟩
  | inf s =>
    have hmag : (if lt (inf s) (finite 0) then -(inf s) else inf s) = inf false := by
      cases s
      · simp [lt]
      · simp only [lt, if_true]; rfl
    rw [hmag]
    refine ⟨rfl, ?_⟩
    cases v with
    | finite p => rfl
    | negZero => exact hv.elim
    | inf s => cases hv; rfl
    | nan => trivial
  | nan =>
    have hmag : (if lt nan (finite 0) then -nan else nan) = nan := by simp [lt]
    rw [hmag]
    refine ⟨rfl, ?_⟩
    cases v with
    | finite p => trivial
    | negZero => exact hv.elim
    | inf s => trivial
    | nan => trivial

end Double

namespace StdMap

theorem find_addTo (m : StdMap Decimal) (k : Str) (x : Decimal) (j : Str) :
    find (addTo m k x) j = if j = k then some ((find m k).getD 0 + x) else find m j :=
  find_insert m k _ j

end StdMap

namespace ReportService

theorem findByUserAndMonth_eq (localtime : LocalTime) (repo : TransactionRepository)
    (userId : Str) (year month : Int) :
    repo.findByUserAndMonth localtime userId year month = monthWindow localtime repo year month :=
  rfl

/-- One step of a breakdown adds the absolute amount to the entry of the key
of the transaction, in a map whose values are not below 0. -/
theorem accumulate_eq (out : StdMap Decimal) (t : Transaction)
    (hout : ∀ e ∈ out, Double.nonneg e.2) :
    accumulate out t
        = StdMap.insert out (label t) ((StdMap.find out (label t)).getD 0 + t.amount.abs) ∧
      ∀ e ∈ accumulate out t, Double.nonneg e.2 := by
  have hv : Double.nonneg ((StdMap.find out (label t)).getD 0) := by
    cases hf : StdMap.find out (label t) with
    | none => rw [Option.getD_none, Double.zero_eq]; exact le_refl (0 : ℚ)
    | some v => exact hout _ (StdMap.mem_of_find out _ v hf)
  have hadd := Double.add_magnitude _ t.amount hv
  have heq : accumulate out t
      = StdMap.insert out (label t) ((StdMap.find out (label t)).getD 0 + t.amount.abs) := by
    exact congrArg (fun x => StdMap.insert out (label t) x) hadd.1
  refine ⟨heq, fun e he => ?_⟩
  rw [heq] at he
  rcases StdMap.mem_insert out _ _ e he with he | he
  · rw [he]; exact hadd.2
  · exact hout e he

theorem labelSum_cons (t : Transaction) (ts : List Transaction) (k : Str) (v : Decimal) :
    ((((t :: ts).filter fun u => decide (label u = k)).map fun u => u.amount.abs).foldl
        (fun total x => total + x) v)
      = if label t = k then
          (((ts.filter fun u => decide (label u = k)).map fun u => u.amount.abs).foldl
            (fun total x => total + x) (v + t.amount.abs))
        else
          (((ts.filter fun u => decide (label u = k)).map fun u => u.amount.abs).foldl
            (fun total x => total + x) v) := by
  by_cases h : label t = k
  · simp [List.filter_cons, h]
  · simp [List.filter_cons, h]

/-- The entry of a key after the accumulation loop over a window. -/
theorem find_foldl_accumulate (window : List Transaction) (out : StdMap Decimal)
    (hout : ∀ e ∈ out, Double.nonneg e.2) (k : Str) :
    StdMap.find (window.foldl accumulate out) k =
      match StdMap.find out k with
      | some v =>
        some (((window.filter fun u => decide (label u = k)).map fun u => u.amount.abs).foldl
          (fun total x => total + x) v)
      | none => if ∃ t ∈ window, label t = k then some (labelSum window k) else none := by
  induction window generalizing out with
  | nil =>
    cases h : StdMap.find out k with
    | some v => simp [h]
    | none => simp [h]
  | cons t ts ih =>
    obtain ⟨heq, hinv⟩ := accumulate_eq out t hout
    rw [List.foldl_cons, ih _ hinv, heq, StdMap.find_insert]
    unfold labelSum Double.sum
    simp only [labelSum_cons]
    by_cases hk : k = label t
    · subst hk
      simp only [if_true]
      cases h : StdMap.find out (label t) with
      | some v => simp
      | none => simp
    · have hk2 : ¬ label t = k := fun e => hk e.symm
      simp only [hk, hk2, if_false]
      cases h : StdMap.find out k with
      | some v => rfl
      | none => simp [hk2]

theorem labelsToSums_foldl (window : List Transaction) :
    labelsToSums (window.foldl accumulate []) window := by
  intro k
  have h := find_foldl_accumulate window [] (fun e he => by cases he) k
  simp only [StdMap.find] at h
  constructor
  · intro hex; rw [h, if_pos hex]
  · intro hex; rw [h, if_neg hex]

/-- Where no category of the window is named like the placeholder, the
breakdown by key is the breakdown by category name as claimed. -/
theorem namesToSums_of_labelsToSums (m : StdMap Decimal) (window : List Transaction)
    (hno : ∀ t ∈ window, ∀ c, t.category = some c → c.obj.name ≠ uncategorized)
    (h : labelsToSums m window) : namesToSums m window := by
  constructor
  · intro t ht c hc
    have hl : label t = c.obj.name := by simp [label, hc]
    rw [(h c.obj.name).1 ⟨t, ht, hl⟩]
    unfold labelSum namedSum
    congr 3
    apply List.filter_congr
    intro u hu
    cases hu2 : u.category with
    | none =>
      have : ¬ uncategorized = c.obj.name := fun e => hno t ht c hc e.symm
      simp [label, hu2, this]
    | some d => simp [label, hu2]
  · rintro ⟨t, ht, hc⟩
    have hl : label t = uncategorized := by simp [label, hc]
    rw [(h uncategorized).1 ⟨t, ht, hl⟩]
    unfold labelSum nullSum
    congr 3
    apply List.filter_congr
    intro u hu
    cases hu2 : u.category with
    | none => simp [label, hu2]
    | some d => simpa [label, hu2] using hno u hu d hu2

theorem categoryBreakdownYear_eq (localtime : LocalTime) (repo : TransactionRepository)
    (year : Int) :
    categoryBreakdownYear localtime repo year
      = (yearWindow localtime repo year).foldl accumulate [] := by
  unfold categoryBreakdownYear
  rw [foldl_if_eq_foldl_filter]
  rfl

/-- The window of the month of `date` in the example store, when `other`
falls in another month. -/
theorem exampleStore_window (localtime : LocalTime) (date other : TimePoint)
    (h : ¬ ((localtime (to_time_t other)).year = (localtime (to_time_t date)).year ∧
      (localtime (to_time_t other)).month = (localtime (to_time_t date)).month)) :
    monthWindow localtime (exampleStore date other)
        (localtime (to_time_t date)).year (localtime (to_time_t date)).month
      = [⟨"t1".toList, 100, date, "employer".toList, some ⟨2, seededSalary⟩, []⟩,
         ⟨"t2".toList, -40, date, "canteen".toList, some ⟨0, seededFood⟩, []⟩,
         ⟨"t3".toList, -10, date, "kiosk".toList, none, []⟩] := by
  simp [monthWindow, exampleStore, TransactionRepository.findAll, List.filter_cons, h]

end ReportService


/-! ### The totals -/

namespace ReportService

/-- The totals after the tally loop over a window. -/
theorem foldl_tally (window : List Transaction) (acc : Decimal × Decimal) :
    window.foldl tally acc =
      ((((window.map fun t => t.amount).filter fun a => Double.ge a 0).foldl
          (fun total x => total + x) acc.1),
       ((((window.map fun t => t.amount).filter fun a => !Double.ge a 0).map fun a => -a).foldl
          (fun total x => total + x) acc.2)) := by
  induction window generalizing acc with
  | nil => rfl
  | cons t ts ih =>
    rw [List.foldl_cons, ih]
    unfold tally
    by_cases h : Double.ge t.amount 0 = true
    · simp [List.filter_cons, h]
    · simp [List.filter_cons, h]

theorem foldl_tally_zero (window : List Transaction) :
    window.foldl tally (0, 0) = geSplit (window.map fun t => t.amount) :=
  foldl_tally window (0, 0)

theorem incomeExpenseTotalsYear_eq (localtime : LocalTime) (repo : TransactionRepository)
    (year : Int) :
    incomeExpenseTotalsYear localtime repo year
      = (yearWindow localtime repo year).foldl tally (0, 0) := by
  unfold incomeExpenseTotalsYear
  rw [foldl_if_eq_foldl_filter]
  rfl

/-- The amounts of a window chosen by date are read off the list of
(amount, date) pairs. -/
theorem window_amounts (p : TimePoint → Bool) (txns : List Transaction) :
    ((txns.filter fun t => p t.date).map fun t => t.amount)
      = (((txns.map fun t => (t.amount, t.date)).filter fun q => p q.2).map Prod.fst) := by
  induction txns with
  | nil => rfl
  | cons t ts ih =>
    by_cases h : p t.date = true
    · simp [List.filter_cons, h, ih]
    · simp [List.filter_cons, h, ih]

/-- An amount is not at least 0 exactly when it is below 0 or a NaN. -/
theorem not_ge_zero (a : Double) :
    Double.ge a 0 = false ↔ (Double.lt a 0 = true ∨ a = Double.nan) := by
  rw [Double.zero_eq]
  cases a with
  | finite q => simp [Double.ge, Double.lt]
  | negZero => simp [Double.ge, Double.lt]
  | inf s => cases s <;> simp [Double.ge, Double.lt]
  | nan => simp [Double.ge, Double.lt]

end ReportService


/-! ### Records of a transactions file -/

namespace TransactionRepository

/-- What one line of `loadFromCsv` does: a line with at least 6 fields adds one
transaction, resolved as the record says; any other line adds nothing. -/
theorem loadLine_transaction_record (dt : DecimalText) (clock : Nat → TimePoint)
    (catRepo : Option CategoryRepository) (repo : TransactionRepository) (line : Str) :
    (6 ≤ (splitCsvLine line).length →
      ∃ u, loadLine dt clock catRepo repo line = ⟨repo.txns ++ [u]⟩ ∧
        resolvedAs catRepo line u) ∧
    ((splitCsvLine line).length < 6 → loadLine dt clock catRepo repo line = repo) := by
  unfold loadLine
  split
  · rename_i hempty
    subst hempty
    exact ⟨fun h => by simp [splitCsvLine, getlineAll] at h, fun _ => rfl⟩
  · split
    · rename_i p0 p1 p2 p3 p4 p5 rest heq
      refine ⟨fun _ => ⟨_, rfl, ?_, ?_⟩, fun h => by rw [heq] at h; simp at h; omega⟩
      · intro cr c hcr hne hfind
        have hname : recordedName line = unescapeCsv p4 := by simp [recordedName, heq]
        rw [hname] at hne hfind
        subst hcr
        simp [hne, hfind]
      · have hname : recordedName line = unescapeCsv p4 := by simp [recordedName, heq]
        rw [hname]
        rintro (h | h | ⟨cr, hcr, h⟩)
        · subst h; rfl
        · cases catRepo with
          | none => rfl
          | some cr => simp [h]
        · subst hcr
          by_cases hne : unescapeCsv p4 = []
          · simp [hne]
          · simp [hne, h]
    · rename_i hno
      refine ⟨fun h => ?_, fun _ => rfl⟩
      exfalso
      generalize splitCsvLine line = parts at hno h
      match parts, hno, h with
      | p0 :: p1 :: p2 :: p3 :: p4 :: p5 :: rest, hno, _ => exact hno p0 p1 p2 p3 p4 p5 rest rfl
      | [], _, h => simp at h
      | [_], _, h => simp at h
      | [_, _], _, h => simp at h
      | [_, _, _], _, h => simp at h
      | [_, _, _, _], _, h => simp at h
      | [_, _, _, _, _], _, h => simp at h

theorem loadLines_records (dt : DecimalText) (clock : Nat → TimePoint)
    (catRepo : Option CategoryRepository) (lines : List Str) :
    ∀ repo : TransactionRepository, ∃ loaded : List Transaction,
      (lines.foldl (loadLine dt clock catRepo) repo).txns = repo.txns ++ loaded ∧
      List.Forall₂ (resolvedAs catRepo)
        (lines.filter fun l => decide (6 ≤ (splitCsvLine l).length)) loaded := by
  induction lines with
  | nil => intro repo; exact ⟨[], by simp, List.Forall₂.nil⟩
  | cons l ls ih =>
    intro repo
    obtain ⟨hrec, hskip⟩ := loadLine_transaction_record dt clock catRepo repo l
    by_cases h6 : 6 ≤ (splitCsvLine l).length
    · obtain ⟨u, hu, hres⟩ := hrec h6
      obtain ⟨loaded, hl, hall⟩ := ih (loadLine dt clock catRepo repo l)
      refine ⟨u :: loaded, ?_, ?_⟩
      · rw [List.foldl_cons, hl, hu]
        simp
      · rw [List.filter_cons_of_pos (by simpa using h6)]
        exact List.Forall₂.cons hres hall
    · obtain ⟨loaded, hl, hall⟩ := ih (loadLine dt clock catRepo repo l)
      refine ⟨loaded, ?_, ?_⟩
      · rw [List.foldl_cons, hl, hskip (not_le.mp h6)]
      · rw [List.filter_cons_of_neg (by simpa using h6)]
        exact hall

end TransactionRepository


/-! ### Records of a categories file -/

theorem getlineAll_append_delim (d : Char) (l rest : Str) (h : d ∉ l) :
    getlineAll d (l ++ d :: rest) = l :: getlineAll d rest := by
  induction l with
  | nil => simp [getlineAll]
  | cons c cs ih =>
    have hc : ¬ c = d := fun e => h (e ▸ List.mem_cons_self _ _)
    have hcs : d ∉ cs := fun e => h (List.mem_cons_of_mem _ e)
    have ih2 := ih hcs
    simp only [List.cons_append, getlineAll, hc, if_false]
    show (match getlineAll d (cs ++ d :: rest) with
      | [] => [[c]]
      | t :: ts => (c :: t) :: ts) = (c :: cs) :: getlineAll d rest
    rw [ih2]

theorem getlineAll_unlines (lines : List Str) (h : ∀ l ∈ lines, newline ∉ l) :
    getlineAll newline (unlines lines) = lines := by
  induction lines with
  | nil => rfl
  | cons l ls ih =>
    have h1 := h l (List.mem_cons_self _ _)
    have h2 := ih fun x hx => h x (List.mem_cons_of_mem _ hx)
    simp only [unlines, List.foldr_cons] at h2 ⊢
    rw [getlineAll_append_delim newline l _ h1, h2]

theorem foldl_filter_of_skip {α β : Type} (f : β → α → β) (p : α → Bool)
    (hskip : ∀ (b : β) (a : α), p a = false → f b a = b) (l : List α) (init : β) :
    l.foldl f init = (l.filter p).foldl f init := by
  induction l generalizing init with
  | nil => rfl
  | cons x xs ih =>
    cases hx : p x with
    | true => rw [List.filter_cons_of_pos hx, List.foldl_cons, List.foldl_cons, ih]
    | false =>
      rw [List.filter_cons_of_neg (by simp [hx]), List.foldl_cons, hskip init x hx, ih]

namespace CategoryRepository

/-- What one line of `loadFromCsv` does: a line with at least 3 fields saves the
category it holds; any other line does nothing. -/
theorem loadLine_category_record (st : CategoryRepository × Heap) (line : Str) :
    (3 ≤ (splitCsvLine line).length → loadLine st line = (st.1.save st.2 (parseRecord line)).2) ∧
    ((splitCsvLine line).length < 3 → loadLine st line = st) := by
  unfold loadLine
  split
  · rename_i hempty
    subst hempty
    exact ⟨fun h => by simp [splitCsvLine, getlineAll] at h, fun _ => rfl⟩
  · split
    · rename_i p0 p1 p2 rest heq
      refine ⟨fun _ => ?_, fun h => by rw [heq] at h; simp at h; omega⟩
      simp [parseRecord, heq]
    · rename_i hno
      refine ⟨fun h => ?_, fun _ => rfl⟩
      exfalso
      generalize splitCsvLine line = parts at hno h
      match parts, hno, h with
      | p0 :: p1 :: p2 :: rest, hno, _ => exact hno p0 p1 p2 rest rfl
      | [], _, h => simp at h
      | [_], _, h => simp at h
      | [_, _], _, h => simp at h

end CategoryRepository


/-! ### Reading the kind of a category -/

theorem isSpace_of_isDigit (c : Char) (h : c.isDigit = true) : isSpace c = false := by
  simp only [Char.isDigit, Bool.and_eq_true, decide_eq_true_eq] at h
  have h1 : 48 ≤ c.toNat := by
    have := h.1
    exact UInt32.le_def.mp this
  simp only [isSpace, Bool.or_eq_false_iff, decide_eq_false_iff_not, Bool.and_eq_false_iff]
  omega

theorem strtol_of_integerText (s : Str) (n : Int) (h : integerText s = some n) :
    strtol s = some n := by
  cases s with
  | nil => simp [integerText] at h
  | cons c r =>
    simp only [integerText] at h
    by_cases hm : c = Char.ofNat 45
    · subst hm
      simp only [if_true] at h
      split at h
      · rename_i hd
        cases h
        cases r with
        | nil => simp [digitsOnly] at hd
        | cons d ds =>
          have hdig : d.isDigit = true := by
            simp only [digitsOnly, List.all_cons, Bool.and_eq_true] at hd
            exact hd.2.1
          have hsp : isSpace (Char.ofNat 45) = false := by decide
          simp [strtol, List.dropWhile, hsp, hdig]
      · cases h
    · simp only [hm, if_false] at h
      by_cases hp : c = Char.ofNat 43
      · subst hp
        simp only [if_true] at h
        split at h
        · rename_i hd
          cases h
          cases r with
          | nil => simp [digitsOnly] at hd
          | cons d ds =>
            have hdig : d.isDigit = true := by
              simp only [digitsOnly, List.all_cons, Bool.and_eq_true] at hd
              exact hd.2.1
            have hsp : isSpace (Char.ofNat 43) = false := by decide
            have hne : ¬ (Char.ofNat 43 = Char.ofNat 45) := by decide
            simp [strtol, List.dropWhile, hsp, hdig, hne]
        · cases h
      · simp only [hp, if_false] at h
        split at h
        · rename_i hd
          cases h
          have hdig : c.isDigit = true := by
            simp only [digitsOnly, List.all_cons, Bool.and_eq_true] at hd
            exact hd.2.1
          simp [strtol, List.dropWhile, isSpace_of_isDigit c hdig, hdig, hm, hp]
        · cases h

theorem stoi_of_integerText (s : Str) (n : Int) (h : integerText s = some n) :
    stoi s = some 1 ↔ n = 1 := by
  simp only [stoi, strtol_of_integerText s n h]
  constructor
  · intro h1
    split at h1
    · cases h1; rfl
    · cases h1
  · intro h1
    subst h1
    simp

theorem parseRecord_income (line : Str) :
    (CategoryRepository.parseRecord line).type = CategoryType.Income
      ↔ stoi (thirdField line) = some 1 := by
  simp only [CategoryRepository.parseRecord, thirdField]
  cases hs : stoi ((splitCsvLine line).getD 2 []) with
  | none => simp
  | some v =>
    by_cases hv : v = 1
    · simp [hv]
    · simp [hv]


/-! ### The round trip of a categories file without delimiters in its fields -/

theorem unescapeCsv_escapeCsv (s : Str) : unescapeCsv (escapeCsv s) = s := by
  induction s with
  | nil => rfl
  | cons c cs ih =>
    by_cases hc : c = dquote
    · subst hc
      simp only [escapeCsv, if_true, unescapeCsv, and_self, ih]
    · simp only [escapeCsv, hc, if_false]
      cases hcs : escapeCsv cs with
      | nil =>
        rw [hcs] at ih
        simp only [unescapeCsv] at ih ⊢
        rw [← ih]
      | cons d rest =>
        rw [hcs] at ih
        simp only [unescapeCsv, hc, false_and, if_false, ih]

theorem mem_escapeCsv (x : Char) (s : Str) (h : x ∈ escapeCsv s) : x = dquote ∨ x ∈ s := by
  induction s with
  | nil => simp [escapeCsv] at h
  | cons c cs ih =>
    simp only [escapeCsv] at h
    split at h
    · rename_i hc
      simp only [List.mem_cons] at h
      rcases h with h | h | h
      · exact Or.inl h
      · exact Or.inl h
      · rcases ih h with h | h
        · exact Or.inl h
        · exact Or.inr (List.mem_cons_of_mem _ h)
    · rcases List.mem_cons.mp h with h | h
      · exact Or.inr (h ▸ List.mem_cons_self _ _)
      · rcases ih h with h | h
        · exact Or.inl h
        · exact Or.inr (List.mem_cons_of_mem _ h)

theorem not_mem_quoted (x : Char) (s : Str) (hq : x ≠ dquote) (hs : x ∉ s) :
    x ∉ quoted s := by
  intro h
  simp only [quoted, List.mem_cons, List.mem_append, List.not_mem_nil, or_false] at h
  rcases h with h | h | h
  · exact hq h
  · rcases mem_escapeCsv x s h with h | h
    · exact hq h
    · exact hs h
  · exact hq h

theorem trimQuotes_quoted (s : Str) : trimQuotes (quoted s) = escapeCsv s := by
  simp [trimQuotes, quoted]

theorem getlineAll_of_no_delim (d : Char) (s : Str) (hne : s ≠ []) (h : d ∉ s) :
    getlineAll d s = [s] := by
  induction s with
  | nil => exact absurd rfl hne
  | cons c cs ih =>
    have hc : ¬ c = d := fun e => h (e ▸ List.mem_cons_self _ _)
    have hcs : d ∉ cs := fun e => h (List.mem_cons_of_mem _ e)
    simp only [getlineAll, hc, if_false]
    cases cs with
    | nil => simp [getlineAll]
    | cons c2 cs2 => rw [ih (by simp) hcs]

theorem showInt_kind (t : CategoryType) :
    showInt t.toInt ≠ [] ∧ comma ∉ showInt t.toInt ∧ newline ∉ showInt t.toInt ∧
    trimQuotes (showInt t.toInt) = showInt t.toInt ∧
    (if (stoi (showInt t.toInt)).getD 0 = 1 then CategoryType.Income else CategoryType.Expense)
      = t := by
  cases t <;> decide

namespace CategoryRepository

theorem splitCsvLine_recordLine (c : Category) (hid : comma ∉ c.categoryId)
    (hname : comma ∉ c.name) :
    splitCsvLine (recordLine c)
      = [escapeCsv c.categoryId, escapeCsv c.name, showInt c.type.toInt] := by
  have hcq : comma ≠ dquote := by decide
  obtain ⟨hne, hcomma, _, htrim, _⟩ := showInt_kind c.type
  simp only [splitCsvLine, recordLine]
  rw [getlineAll_append_delim comma _ _ (not_mem_quoted comma _ hcq hid),
    getlineAll_append_delim comma _ _ (not_mem_quoted comma _ hcq hname),
    getlineAll_of_no_delim comma _ hne hcomma]
  simp only [List.map_cons, List.map_nil, trimQuotes_quoted, htrim]

theorem parseRecord_recordLine (c : Category) (hid : comma ∉ c.categoryId)
    (hname : comma ∉ c.name) : parseRecord (recordLine c) = c := by
  obtain ⟨_, _, _, _, hkind⟩ := showInt_kind c.type
  simp only [parseRecord, splitCsvLine_recordLine c hid hname]
  simp only [List.getD_cons_zero, List.getD_cons_succ, unescapeCsv_escapeCsv, hkind]

theorem newline_not_mem_recordLine (c : Category) (hid : newline ∉ c.categoryId)
    (hname : newline ∉ c.name) : newline ∉ recordLine c := by
  have hnq : newline ≠ dquote := by decide
  have hnc : newline ≠ comma := by decide
  obtain ⟨_, _, hnl, _, _⟩ := showInt_kind c.type
  intro h
  simp only [recordLine, List.mem_append, List.mem_cons] at h
  rcases h with h | h | h | h | h
  · exact not_mem_quoted newline _ hnq hid h
  · exact hnc h
  · exact not_mem_quoted newline _ hnq hname h
  · exact hnc h
  · exact hnl h

theorem saveToCsv_eq_unlines (repo : CategoryRepository) :
    repo.saveToCsv = unlines (repo.byName.map fun p => recordLine p.2.obj) := by
  simp only [saveToCsv, unlines]
  generalize repo.byName = m
  induction m with
  | nil => rfl
  | cons e rest ih =>
    simp only [List.foldr_cons, List.map_cons, ih]
    simp [record, recordLine, List.append_assoc]

theorem loadLine_recordLine (st : CategoryRepository × Heap) (c : Category)
    (hid : comma ∉ c.categoryId) (hname : comma ∉ c.name) :
    loadLine st (recordLine c) = (st.1.save st.2 c).2 := by
  rw [(loadLine_category_record st (recordLine c)).1
    (by rw [splitCsvLine_recordLine c hid hname]; simp),
    parseRecord_recordLine c hid hname]

end CategoryRepository

theorem strLt_asymm (a b : Str) (h : strLt a b = true) : strLt b a = false := by
  cases hba : strLt b a with
  | false => rfl
  | true =>
    have := strLt_trans a b a h hba
    rw [strLt_irrefl] at this
    cases this

namespace StdMap

/-- Assigning under a key above all keys of the map appends the entry. -/
theorem insert_of_all_lt {β : Type} (m : StdMap β) (k : Str) (v : β)
    (h : ∀ e ∈ m, strLt e.1 k = true) : insert m k v = m ++ [(k, v)] := by
  induction m with
  | nil => rfl
  | cons e rest ih =>
    obtain ⟨k1, v1⟩ := e
    have h1 : strLt k1 k = true := h (k1, v1) (List.mem_cons_self _ _)
    have h2 : strLt k k1 = false := strLt_asymm k1 k h1
    simp only [insert, h1, h2, if_true, Bool.false_eq_true, if_false, List.cons_append,
      ih fun e he => h e (List.mem_cons_of_mem _ he)]

theorem WF_iff_keys {β : Type} (m : StdMap β) :
    WF m ↔ (m.map Prod.fst).Pairwise fun a b => strLt a b = true := by
  unfold WF
  rw [List.pairwise_map]

theorem find_map_snd {β γ : Type} (f : β → γ) (m : StdMap β) (k : Str) :
    (find m k).map f = find (m.map fun e => (e.1, f e.2)) k := by
  induction m with
  | nil => rfl
  | cons e rest ih =>
    obtain ⟨k1, v1⟩ := e
    simp only [find, List.map_cons]
    split
    · rfl
    · exact ih

end StdMap

namespace CategoryRepository

/-- Saving the categories of entries in increasing key order, each above the
keys already stored, appends them one by one. -/
theorem foldl_save_entries (entries : StdMap CategoryPtr) :
    ∀ (m : StdMap CategoryPtr) (heap : Heap), StdMap.WF (m ++ entries) →
      (∀ e ∈ entries, e.2.obj.name = e.1) →
      (entries.foldl (fun (st : CategoryRepository × Heap) e => (st.1.save st.2 e.2.obj).2)
          (⟨m⟩, heap)).1.byName.map (fun e => (e.1, e.2.obj))
        = (m ++ entries).map fun e => (e.1, e.2.obj) := by
  induction entries with
  | nil => intro m heap _ _; simp
  | cons e es ih =>
    intro m heap hwf hk
    have hname : e.2.obj.name = e.1 := hk e (List.mem_cons_self _ _)
    have hlt : ∀ x ∈ m, strLt x.1 e.1 = true := by
      intro x hx
      exact (List.pairwise_append.mp hwf).2.2 x hx e (List.mem_cons_self _ _)
    have hsave : (save ⟨m⟩ heap e.2.obj).2 = (⟨m ++ [(e.1, ⟨heap, e.2.obj⟩)]⟩, heap + 1) := by
      simp only [save, make_shared, hname]
      rw [StdMap.insert_of_all_lt m e.1 _ hlt]
    have hwf2 : StdMap.WF ((m ++ [(e.1, (⟨heap, e.2.obj⟩ : CategoryPtr))]) ++ es) := by
      rw [StdMap.WF_iff_keys] at hwf ⊢
      simpa using hwf
    rw [List.foldl_cons, hsave, ih _ _ hwf2 fun x hx => hk x (List.mem_cons_of_mem _ hx)]
    simp

theorem foldl_loadLine_recordLine (entries : StdMap CategoryPtr)
    (hfree : ∀ e ∈ entries, comma ∉ e.2.obj.categoryId ∧ comma ∉ e.2.obj.name) :
    ∀ st : CategoryRepository × Heap,
      (entries.map fun p => recordLine p.2.obj).foldl loadLine st
        = entries.foldl (fun (st : CategoryRepository × Heap) e => (st.1.save st.2 e.2.obj).2)
            st := by
  induction entries with
  | nil => intro st; rfl
  | cons e es ih =>
    intro st
    obtain ⟨h1, h2⟩ := hfree e (List.mem_cons_self _ _)
    simp only [List.map_cons, List.foldl_cons, loadLine_recordLine st e.2.obj h1 h2]
    exact ih (fun x hx => hfree x (List.mem_cons_of_mem _ hx)) _

end CategoryRepository


/-! ### Whole amounts add without rounding -/

namespace Double

end Double

namespace StdMap

end StdMap

namespace ReportService

end ReportService


/-! ### References that stay the stored instance -/

theorem reachable_of_withoutOverwrite (w : World) (h : ReachableWithoutOverwrite w) :
    Reachable w := by
  induction h with
  | init heap => exact Reachable.init heap
  | save w c _ _ ih => exact Reachable.save w c ih
  | removeCascade w name _ ih => exact Reachable.removeCascade w name ih
  | construct w _ ih => exact Reachable.construct w ih
  | importTransactions w svc txns th _ hsvc hun ih =>
    exact Reachable.importTransactions w svc txns th ih hsvc hun
  | loadFromCsv w dt clock file _ ih => exact Reachable.loadFromCsv w dt clock file ih

/-- Where no `save` replaces a referenced category, every reference is the
pointer the Category Store holds under the referenced name. -/
theorem refsAreStored_of_withoutOverwrite (w : World) (h : ReachableWithoutOverwrite w) :
    w.refsAreStored := by
  have fresh : ∀ (cr : CategoryRepository), cr.KeyedByName →
      ∀ (c : CategoryPtr) (n : Str), cr.findByName n = some c →
        cr.findByName c.obj.name = some c := by
    intro cr hk c n hn
    rw [CategoryRepository.findByName_name cr hk n c hn, hn]
  induction h with
  | init heap => intro t ht; simp [TransactionRepository.empty, TransactionRepository.findAll] at ht
  | save w c _ hside ih =>
    intro t ht d hd
    have hne : d.obj.name ≠ c.name := by
      rcases hside with hnone | hno
      · intro e
        have := ih t ht d hd
        rw [e, hnone] at this
        cases this
      · exact hno t ht d hd
    show (w.catRepo.save w.heap c).2.1.findByName d.obj.name = some d
    rw [CategoryRepository.findByName_save, if_neg hne]
    exact ih t ht d hd
  | removeCascade w name _ ih =>
    intro t ht d hd
    obtain ⟨hne, u, hu, hud⟩ := TransactionRepository.clearCategory_mem _ _ t ht d hd
    show (w.catRepo.remove name).2.findByName d.obj.name = some d
    rw [CategoryRepository.findByName_remove_of_ne _ _ _ hne]
    exact ih u hu d hud
  | construct w _ ih =>
    intro t ht d hd
    show (CategorizerService.new w.catRepo w.heap).2.1.findByName d.obj.name = some d
    simp only [CategorizerService.new]
    exact CategorizerService.seed_keeps_found _ _ _ _
      (CategorizerService.seed_keeps_found _ _ _ _
        (CategorizerService.seed_keeps_found _ _ _ _ (ih t ht d hd)))
  | importTransactions w svc txns th hw _ hun ih =>
    intro t ht d hd
    have hk := (world_reachable_inv w (reachable_of_withoutOverwrite w hw)).1
    rcases TransactionService.importTransactions_mem svc w.catRepo th txns hun _ t ht
      with h | h | ⟨c, n, hc, hn⟩
    · exact ih t h d hd
    · rw [h] at hd; cases hd
    · rw [hc] at hd; cases hd
      exact fresh _ hk _ n hn
  | loadFromCsv w dt clock file hw ih =>
    intro t ht d hd
    have hk := (world_reachable_inv w (reachable_of_withoutOverwrite w hw)).1
    rcases TransactionRepository.loadFromCsv_mem dt clock w.catRepo _ file t ht
      with h | h | ⟨c, n, hc, hn⟩
    · exact ih t h d hd
    · rw [h] at hd; cases hd
    · rw [hc] at hd; cases hd
      exact fresh _ hk _ n hn

theorem afterLoad_withoutOverwrite : ReachableWithoutOverwrite World.afterLoad :=
  ReachableWithoutOverwrite.loadFromCsv _ _ _ _
    (ReachableWithoutOverwrite.save _ _ (ReachableWithoutOverwrite.init 0) (Or.inl rfl))

theorem afterLoad_txns :
    World.afterLoad.txnRepo.findAll.map (fun t => t.category) = [some ⟨0, foodExpense⟩] := by
  decide


/-! ### The claims -/

/-- C1 (the code breaks the claim): a Category Store holding the one category
`commaCategory` (id `1`, name `a,b`, Income) is written by `saveToCsv` as one
record with the name between quotes; `loadFromCsv` of that text into an empty
store splits inside the quoted name and yields one category with id `1`, name
`a` and kind Expense, which is not the category that was saved.  Whatever the
file holds, no category loaded into an empty store has the name `a,b`. -/
theorem C1_category_roundtrip_loses_comma_name :
    ((CategoryRepository.empty.save 0 commaCategory).2.1.all.map (fun p => p.obj)
      = [commaCategory] ∧
    (CategoryRepository.empty.save 0 commaCategory).2.1.saveToCsv
      = quoted "1".toList ++ comma :: (quoted "a,b".toList ++ comma :: "1".toList ++ [newline]) ∧
    (CategoryRepository.loadFromCsv CategoryRepository.empty 1
        (some (CategoryRepository.empty.save 0 commaCategory).2.1.saveToCsv)).1.all.map
          (fun p => p.obj)
      = [⟨"1".toList, "a".toList, CategoryType.Expense⟩]) ∧
    ∀ (heap : Heap) (file : Option Str),
      ∀ p ∈ (CategoryRepository.loadFromCsv CategoryRepository.empty heap file).1.all,
        p.obj.name ≠ commaCategory.name := by
  refine ⟨by decide, fun heap file p hp heq => ?_⟩
  simp only [CategoryRepository.all, List.mem_map] at hp
  obtain ⟨e, he, rfl⟩ := hp
  have := CategoryRepository.loadFromCsv_names CategoryRepository.empty heap file
    (fun e he => by simp [CategoryRepository.empty] at he) e he
  rw [heq] at this
  exact this (by decide)

/-- C2 (the code breaks the claim): for the Transaction Store holding the one
uncategorized transaction `commaMerchant` (merchant `a,b`), whatever the text
form of amounts, the clock and the resolver are, no transaction that
`loadFromCsv` reads back from what `saveToCsv` wrote has the merchant `a,b`,
so the loaded store is not the saved one; with every amount written as `0`
the one transaction read back has merchant `a`. -/
theorem C2_transaction_roundtrip_loses_comma_merchant :
    (∀ (dt : DecimalText) (clock : Nat → TimePoint) (S : CategoryRepository),
      (∀ u ∈ (TransactionRepository.loadFromCsv dt clock TransactionRepository.empty
          (some (TransactionRepository.saveToCsv dt ⟨[commaMerchant]⟩)) (some S)).findAll,
        u.merchant ≠ commaMerchant.merchant) ∧
      TransactionRepository.loadFromCsv dt clock TransactionRepository.empty
          (some (TransactionRepository.saveToCsv dt ⟨[commaMerchant]⟩)) (some S)
        ≠ ⟨[commaMerchant]⟩) ∧
    (TransactionRepository.loadFromCsv zeroText (fun _ => 0) TransactionRepository.empty
        (some (TransactionRepository.saveToCsv zeroText ⟨[commaMerchant]⟩))
        (some CategoryRepository.empty)).findAll.map
          (fun u => (u.txnId, u.merchant, u.category, u.notes))
      = [("t1".toList, "a".toList, none, [])] := by
  have key : ∀ (dt : DecimalText) (clock : Nat → TimePoint) (S : CategoryRepository),
      ∀ u ∈ (TransactionRepository.loadFromCsv dt clock TransactionRepository.empty
          (some (TransactionRepository.saveToCsv dt ⟨[commaMerchant]⟩)) (some S)).findAll,
        u.merchant ≠ commaMerchant.merchant := by
    intro dt clock S u hu heq
    rcases TransactionRepository.loadFromCsv_merchant dt clock (some S) _ _ u hu with h | h
    · simp [TransactionRepository.empty] at h
    · rw [heq] at h
      exact h (by decide)
  refine ⟨fun dt clock S => ⟨key dt clock S, fun heq => ?_⟩, by decide⟩
  have := key dt clock S commaMerchant (by
    rw [TransactionRepository.findAll, heq]; exact List.mem_singleton.mpr rfl)
  exact this rfl

/-- C3 (the claim as stated fails): after `save(foodExpense)`, a
`loadFromCsv` that resolves a record's category name Food, and then
`save(foodIncome)`, which overwrites the name Food, the state is reachable and
its transaction still references the first Food object, while `findByName` of
Food returns the second: the reference is not the category the store holds. -/
theorem C3_overwrite_leaves_stale_reference :
    Reachable World.afterOverwrite ∧
    World.afterOverwrite.txnRepo.findAll.map (fun t => t.category)
      = [some ⟨0, foodExpense⟩] ∧
    World.afterOverwrite.catRepo.findByName "Food".toList = some ⟨1, foodIncome⟩ ∧
    ¬ World.afterOverwrite.refsAreStored := by
  refine ⟨afterOverwrite_reachable, afterOverwrite_txns, afterOverwrite_find, fun h => ?_⟩
  have hmem : some (⟨0, foodExpense⟩ : CategoryPtr) ∈
      World.afterOverwrite.txnRepo.findAll.map (fun t => t.category) := by
    rw [afterOverwrite_txns]; exact List.mem_singleton.mpr rfl
  obtain ⟨t, ht, hc⟩ := List.mem_map.mp hmem
  have := h t ht _ hc
  revert this
  decide

/-- C3 (amended): in every state reachable from empty stores by `save`,
`remove` followed by `clearCategory` of the same name, construction of the
categorizer, `importTransactions` of uncategorized transactions and
`loadFromCsv` with the Category Store as resolver, every transaction's
category reference is either null or carries a name under which the Category
Store currently holds a category; and in every such state whose trace has no
`save` that replaces a category some transaction references (at each `save`
the store holds nothing under the saved name, or no transaction references a
category of that name), the reference is the category that the store holds
under that name: `findByName` of the referenced category's name returns that
same category. -/
theorem C3_references_name_stored_categories (w : World) :
    (Reachable w → w.refsAreNamed) ∧
    (ReachableWithoutOverwrite w → w.refsAreStored) ∧
    (ReachableWithoutOverwrite w → Reachable w) := by
  refine ⟨fun h t ht c hc => ?_, refsAreStored_of_withoutOverwrite w,
    reachable_of_withoutOverwrite w⟩
  have hinv := world_reachable_inv w h
  have hs := hinv.2 t ht c hc
  cases hf : w.catRepo.findByName c.obj.name with
  | none => rw [hf] at hs; cases hs
  | some d => exact ⟨d, rfl, CategoryRepository.findByName_name _ hinv.1 _ _ hf⟩

/-- C3 (amended), at the state in which a referenced category was
overwritten, and at the state before the overwriting `save`, in which the one
transaction references the stored category. -/
theorem C3_references_name_stored_categories_witness :
    (Reachable World.afterOverwrite ∧ World.afterOverwrite.refsAreNamed) ∧
    (ReachableWithoutOverwrite World.afterLoad ∧ World.afterLoad.refsAreStored ∧
      World.afterLoad.txnRepo.findAll.map (fun t => t.category) = [some ⟨0, foodExpense⟩]) :=
  ⟨⟨afterOverwrite_reachable,
      (C3_references_name_stored_categories World.afterOverwrite).1 afterOverwrite_reachable⟩,
    ⟨afterLoad_withoutOverwrite,
      (C3_references_name_stored_categories World.afterLoad).2.1 afterLoad_withoutOverwrite,
      afterLoad_txns⟩⟩

/-- C4: for every Transaction Store state and every category name `n`, after
`clearCategory(n)` no transaction references a category named `n`:
`findByCategory(n)` returns the empty sequence. -/
theorem C4_clearCategory_leaves_no_reference (repo : TransactionRepository) (n : Str) :
    (repo.clearCategory n).findByCategory n = [] := by
  simp only [TransactionRepository.findByCategory, TransactionRepository.clearCategory,
    List.filter_eq_nil_iff, List.mem_map]
  rintro t ⟨u, _, rfl⟩
  cases hc : (TransactionRepository.clearOne n u).category with
  | none => simp
  | some c => simpa using clearOne_category n u c hc

/-- C5: for every Transaction Store state and every category name `n`,
`clearCategory(n)` deletes no transaction and changes nothing else: `findAll()`
has the same length afterwards, and position by position every transaction
keeps its id, amount, timestamp, merchant and notes, and keeps its category
reference when that reference is null or has a name different from `n`. -/
theorem C5_clearCategory_frame (repo : TransactionRepository) (n : Str) :
    (repo.clearCategory n).findAll.length = repo.findAll.length ∧
    List.Forall₂
      (fun t u => u.txnId = t.txnId ∧ u.amount = t.amount ∧ u.date = t.date ∧
        u.merchant = t.merchant ∧ u.notes = t.notes ∧
        ((t.category = none ∨ ∃ c, t.category = some c ∧ c.obj.name ≠ n) →
          u.category = t.category))
      repo.findAll (repo.clearCategory n).findAll := by
  refine ⟨by simp [TransactionRepository.clearCategory, TransactionRepository.findAll], ?_⟩
  simp only [TransactionRepository.clearCategory, TransactionRepository.findAll]
  generalize repo.txns = l
  induction l with
  | nil => exact List.Forall₂.nil
  | cons t ts ih =>
    refine List.Forall₂.cons ?_ ih
    unfold TransactionRepository.clearOne
    split
    · rename_i c hc
      split
      · rename_i heq
        refine ⟨rfl, rfl, rfl, rfl, rfl, ?_⟩
        rintro (h | ⟨d, hd, hne⟩)
        · rw [h] at hc; cases hc
        · rw [hd] at hc; cases hc; exact absurd heq hne
      · exact ⟨rfl, rfl, rfl, rfl, rfl, fun _ => rfl⟩
    · exact ⟨rfl, rfl, rfl, rfl, rfl, fun _ => rfl⟩

/-- C6: for every Category Store state and every category `c`, after `save(c)`
the lookup `findByName(c.name)` returns the instance that `save` returned,
which holds `c` (its id, name and kind), and `findByName(m)` for every other
name `m` returns what it returned before. -/
theorem C6_save_then_findByName (repo : CategoryRepository) (heap : Heap) (c : Category) :
    (repo.save heap c).2.1.findByName c.name = some (repo.save heap c).1 ∧
    (repo.save heap c).1.obj = c ∧
    ∀ m : Str, (repo.save heap c).2.1.findByName m =
      if m = c.name then some (repo.save heap c).1 else repo.findByName m := by
  refine ⟨?_, rfl, fun m => CategoryRepository.findByName_save repo heap c m⟩
  rw [CategoryRepository.findByName_save]; simp

/-- C7: in every Category Store state reachable from the empty store by
`save`, `remove` and `loadFromCsv`, category names are unique: the names of
`all()` have no duplicate, and whenever `findByName(n)` returns a category its
name is `n`. -/
theorem C7_names_unique (repo : CategoryRepository) (h : CategoryRepository.Reachable repo) :
    (repo.all.map fun p => p.obj.name).Nodup ∧
    ∀ (n : Str) (c : CategoryPtr), repo.findByName n = some c → c.obj.name = n := by
  obtain ⟨hwf, hk⟩ := CategoryRepository.reachable_keyed repo h
  refine ⟨?_, fun n c hc => CategoryRepository.findByName_name repo hk n c hc⟩
  have hnames : (repo.all.map fun p => p.obj.name) = repo.byName.map Prod.fst := by
    simp only [CategoryRepository.all, List.map_map]
    exact List.map_congr_left fun e he => hk e he
  rw [hnames]
  unfold List.Nodup
  rw [List.pairwise_map]
  refine List.Pairwise.imp ?_ hwf
  intro a b hab heq
  rw [heq, strLt_irrefl] at hab
  cases hab

/-- C7 at the store reached by one `save`. -/
theorem C7_names_unique_witness :
    CategoryRepository.Reachable (CategoryRepository.empty.save 0 foodExpense).2.1 ∧
    ((CategoryRepository.empty.save 0 foodExpense).2.1.all.map fun p => p.obj.name).Nodup ∧
    ∀ (n : Str) (c : CategoryPtr),
      (CategoryRepository.empty.save 0 foodExpense).2.1.findByName n = some c → c.obj.name = n :=
  ⟨CategoryRepository.Reachable.save _ _ _ CategoryRepository.Reachable.empty,
    C7_names_unique _ (CategoryRepository.Reachable.save _ _ _ CategoryRepository.Reachable.empty)⟩

/-- C8: for every Category Store state (a `std::map`, its keys strictly
increasing) and name `n`, `remove(n)` returns true exactly when `findByName(n)`
was present; when it returns false the store is unchanged; when it returns
true `findByName(n)` is absent afterwards and every other name's lookup is
unchanged; and a second `remove(n)` returns false. -/
theorem C8_remove (repo : CategoryRepository) (n : Str) (hwf : StdMap.WF repo.byName) :
    (repo.remove n).1 = (repo.findByName n).isSome ∧
    ((repo.remove n).1 = false → (repo.remove n).2 = repo) ∧
    ((repo.remove n).1 = true →
      (repo.remove n).2.findByName n = none ∧
      ∀ m : Str, m ≠ n → (repo.remove n).2.findByName m = repo.findByName m) ∧
    ((repo.remove n).2.remove n).1 = false := by
  have hself : (repo.remove n).2.findByName n = none := by
    unfold CategoryRepository.remove
    split
    · rename_i hf; exact hf
    · exact StdMap.find_erase_self repo.byName n hwf
  refine ⟨?_, ?_, fun _ => ⟨hself, fun m hm =>
    CategoryRepository.findByName_remove_of_ne repo n m hm⟩, ?_⟩
  · unfold CategoryRepository.remove CategoryRepository.findByName
    split
    · rename_i hf; rw [hf]; rfl
    · rename_i hf; rw [hf]; rfl
  · unfold CategoryRepository.remove
    split
    · intro _; rfl
    · intro h; cases h
  · have : StdMap.find (repo.remove n).2.byName n = none := hself
    generalize (repo.remove n).2 = r at this
    simp only [CategoryRepository.remove, this]

/-- C8 at the store holding one category named Food: removing Food returns
true and leaves Food absent. -/
theorem C8_remove_witness :
    StdMap.WF (CategoryRepository.empty.save 0 foodExpense).2.1.byName ∧
    ((CategoryRepository.empty.save 0 foodExpense).2.1.remove "Food".toList).1 = true ∧
    ((CategoryRepository.empty.save 0 foodExpense).2.1.remove "Food".toList).2.findByName
      "Food".toList = none :=
  have hwf : StdMap.WF (CategoryRepository.empty.save 0 foodExpense).2.1.byName := by
    simp [StdMap.WF, CategoryRepository.save, CategoryRepository.empty, StdMap.insert]
  ⟨hwf, by decide, ((C8_remove _ "Food".toList hwf).2.2.1 (by decide)).1⟩

/-- C9: for every Category Store, after a `CategorizerService` has been
constructed on it, the store holds a category under the name Food, and
`autoCategorize` of a transaction whose merchant is exactly `lunch` and whose
notes are empty returns that category together with confidence 0.95. -/
theorem C9_lunch_is_food (repo : CategoryRepository) (heap : Heap) (txnId : Str) (amount : Decimal)
    (date : TimePoint) (category : Option CategoryPtr) :
    ∃ food : CategoryPtr,
      (CategorizerService.new repo heap).2.1.findByName "Food".toList = some food ∧
      (CategorizerService.new repo heap).1.autoCategorize (CategorizerService.new repo heap).2.1
        ⟨txnId, amount, date, "lunch".toList, category, []⟩ = (some food, 95 / 100) := by
  obtain ⟨food, hfood⟩ := Option.isSome_iff_exists.mp (CategorizerService.new_food repo heap)
  refine ⟨food, hfood, ?_⟩
  simp only [CategorizerService.autoCategorize, CategorizerService.new_keywords,
    CategorizerService.defaultKeywords_eq]
  rw [CategorizerService.scan_skip _ _ _ _ (by dsimp only; decide),
    CategorizerService.scan_skip _ _ _ _ (by dsimp only; decide)]
  exact CategorizerService.scan_hit _ _ _ _ food (by dsimp only; decide) hfood

/-- C10: for every Category Store state and every transaction in which none
of the six keywords (eat, meal, lunch, subway, bus, salary) occurs as a
substring of the merchant or of the notes, `autoCategorize` (of a constructed
`CategorizerService`) returns no category and confidence 0. -/
theorem C10_no_keyword_no_category (repo0 : CategoryRepository) (heap0 : Heap) (repo : CategoryRepository)
    (t : Transaction)
    (h : ∀ kw ∈ ["eat".toList, "meal".toList, "lunch".toList, "subway".toList,
        "bus".toList, "salary".toList], ¬ kw <:+: t.merchant ∧ ¬ kw <:+: t.notes) :
    (CategorizerService.new repo0 heap0).1.autoCategorize repo t = (none, 0) := by
  simp only [CategorizerService.autoCategorize, CategorizerService.new_keywords,
    CategorizerService.defaultKeywords_eq]
  apply CategorizerService.scan_none
  intro kv hkv
  apply h
  simp only [List.mem_cons, List.mem_singleton, List.not_mem_nil, or_false] at hkv ⊢
  rcases hkv with h | h | h | h | h | h <;> simp [h]

/-- C10 at a transaction with merchant `coffee` and empty notes. -/
theorem C10_no_keyword_no_category_witness :
    (CategorizerService.new CategoryRepository.empty 0).1.autoCategorize
      (CategorizerService.new CategoryRepository.empty 0).2.1
      ⟨"t1".toList, 0, 0, "coffee".toList, none, []⟩ = (none, 0) :=
  C10_no_keyword_no_category CategoryRepository.empty 0 _ _ (by decide)

/-- C11 (the claim as stated fails): on the store from which Transport was
removed, for a transaction with merchant `bus lunch`, the first keyword in
scan order, bus, occurs and is mapped to Transport, which the store does not
hold; `autoCategorize` passes over it and returns the Food category, found
through the later keyword lunch. -/
theorem C11_absent_category_is_passed_over :
    (CategorizerService.new CategoryRepository.empty 0).1.keywordToCategory.head?
      = some ("bus".toList, "Transport".toList) ∧
    CategorizerService.occurs busLunch "bus".toList ∧
    storeWithoutTransport.findByName "Transport".toList = none ∧
    ((CategorizerService.new CategoryRepository.empty 0).1.autoCategorize
        storeWithoutTransport busLunch).1
      = some ⟨0, ⟨"c_food".toList, "Food".toList, CategoryType.Expense⟩⟩ ∧
    ¬ (CategorizerService.new CategoryRepository.empty 0).1.firstMatchRule
        storeWithoutTransport busLunch := by
  refine ⟨by decide, by decide, by decide, by decide, fun h => ?_⟩
  obtain ⟨c, hname, hres⟩ := h []
    [("eat".toList, "Food".toList), ("lunch".toList, "Food".toList),
      ("meal".toList, "Food".toList), ("salary".toList, "Salary".toList),
      ("subway".toList, "Transport".toList)]
    ("bus".toList, "Transport".toList) (by decide) (by simp) (by decide)
  have h1 : ((CategorizerService.new CategoryRepository.empty 0).1.autoCategorize
      storeWithoutTransport busLunch).1 = some c := by rw [hres]
  have h2 : ((CategorizerService.new CategoryRepository.empty 0).1.autoCategorize
      storeWithoutTransport busLunch).1
      = some ⟨0, ⟨"c_food".toList, "Food".toList, CategoryType.Expense⟩⟩ := by decide
  rw [h2] at h1
  cases h1
  revert hname
  decide

/-- C11 (amended): for every Category Store state and every transaction,
`autoCategorize` returns, with confidence 0.95, the category stored under the
name mapped from the first keyword in scan order that occurs in the merchant
or the notes and whose mapped name the store holds (keywords that occur but
whose category is absent are passed over); when no occurring keyword has its
category in the store the result is no category and confidence 0. -/
theorem C11_first_keyword_with_stored_category (repo0 : CategoryRepository) (heap0 : Heap) (repo : CategoryRepository)
    (t : Transaction) :
    (∀ (pre post : List (Str × Str)) (kv : Str × Str) (c : CategoryPtr),
      (CategorizerService.new repo0 heap0).1.keywordToCategory = pre ++ kv :: post →
      (∀ k ∈ pre, CategorizerService.occurs t k.1 → repo.findByName k.2 = none) →
      CategorizerService.occurs t kv.1 →
      repo.findByName kv.2 = some c →
      (CategorizerService.new repo0 heap0).1.autoCategorize repo t = (some c, 95 / 100)) ∧
    ((∀ k ∈ (CategorizerService.new repo0 heap0).1.keywordToCategory,
        CategorizerService.occurs t k.1 → repo.findByName k.2 = none) →
      (CategorizerService.new repo0 heap0).1.autoCategorize repo t = (none, 0)) := by
  constructor
  · intro pre post kv c hsplit hpre hocc hc
    simp only [CategorizerService.autoCategorize, hsplit]
    rw [CategorizerService.scan_append_of_passed _ _ _ _ hpre]
    exact CategorizerService.scan_hit _ _ _ _ c ((CategorizerService.occurs_iff t kv.1).mpr hocc) hc
  · intro h
    exact CategorizerService.scan_nil_of_passed _ _ _ h

/-- C11 (amended), at the store without Transport and the merchant
`bus lunch`: bus and eat are passed over, lunch gives Food. -/
theorem C11_first_keyword_with_stored_category_witness :
    (CategorizerService.new CategoryRepository.empty 0).1.autoCategorize
        storeWithoutTransport busLunch
      = (some ⟨0, ⟨"c_food".toList, "Food".toList, CategoryType.Expense⟩⟩, 95 / 100) :=
  (C11_first_keyword_with_stored_category CategoryRepository.empty 0 storeWithoutTransport busLunch).1
    [("bus".toList, "Transport".toList), ("eat".toList, "Food".toList)]
    [("meal".toList, "Food".toList), ("salary".toList, "Salary".toList),
      ("subway".toList, "Transport".toList)]
    ("lunch".toList, "Food".toList) _
    (by decide) (by decide) (by decide) (by decide)

/-- C12: for every Category Store state, constructing a `CategorizerService`
on it leaves categories present under Food, Transport and Salary and overwrites
nothing: every category the store returned before is returned unchanged
afterwards, and whatever else is returned afterwards is one of the three
defaults, under its own name, where that name was absent. -/
theorem C12_constructor_seeds_without_overwriting (repo : CategoryRepository) (heap : Heap) :
    ((CategorizerService.new repo heap).2.1.findByName "Food".toList).isSome = true ∧
    ((CategorizerService.new repo heap).2.1.findByName "Transport".toList).isSome = true ∧
    ((CategorizerService.new repo heap).2.1.findByName "Salary".toList).isSome = true ∧
    (∀ (n : Str) (c : CategoryPtr), repo.findByName n = some c →
      (CategorizerService.new repo heap).2.1.findByName n = some c) ∧
    (∀ (n : Str) (c : CategoryPtr),
      (CategorizerService.new repo heap).2.1.findByName n = some c →
      repo.findByName n = some c ∨
        (repo.findByName n = none ∧ c.obj.name = n ∧
          c.obj ∈ [(⟨"c_food".toList, "Food".toList, CategoryType.Expense⟩ : Category),
            ⟨"c_trans".toList, "Transport".toList, CategoryType.Expense⟩,
            ⟨"c_salary".toList, "Salary".toList, CategoryType.Income⟩])) := by
  refine ⟨CategorizerService.new_food repo heap, ?_, ?_, ?_, ?_⟩
  · simp only [CategorizerService.new]
    exact CategorizerService.seed_keeps _ _ _ (CategorizerService.seed_found _
      ⟨"c_trans".toList, "Transport".toList, CategoryType.Expense⟩)
  · simp only [CategorizerService.new]
    exact CategorizerService.seed_found _
      ⟨"c_salary".toList, "Salary".toList, CategoryType.Income⟩
  · intro n c h
    simp only [CategorizerService.new]
    exact CategorizerService.seed_keeps_found _ _ _ _
      (CategorizerService.seed_keeps_found _ _ _ _
        (CategorizerService.seed_keeps_found (repo, heap) _ _ _ h))
  · intro n c h
    simp only [CategorizerService.new] at h
    rcases CategorizerService.seed_new_found _ _ _ _ h with h3 | ⟨h3, ho, hn⟩
    · rcases CategorizerService.seed_new_found _ _ _ _ h3 with h2 | ⟨h2, ho, hn⟩
      · rcases CategorizerService.seed_new_found _ _ _ _ h2 with h1 | ⟨h1, ho, hn⟩
        · exact Or.inl h1
        · exact Or.inr ⟨h1, by rw [ho, hn], by simp [ho]⟩
      · refine Or.inr ⟨?_, by rw [ho, hn], by simp [ho]⟩
        cases h1 : repo.findByName n with
        | none => rfl
        | some e =>
          rw [CategorizerService.seed_keeps_found (repo, heap) _ n e h1] at h2
          cases h2
    · refine Or.inr ⟨?_, by rw [ho, hn], by simp [ho]⟩
      cases h1 : repo.findByName n with
      | none => rfl
      | some e =>
        rw [CategorizerService.seed_keeps_found _ _ n e
          (CategorizerService.seed_keeps_found (repo, heap) _ n e h1)] at h3
        cases h3

/-- C13 (the claim as stated fails): an input transaction that matches no
keyword and already references the Food category gets no proposal, yet
`importTransactions` stores it with its Food reference, not uncategorized. -/
theorem C13_categorized_input_keeps_category :
    (CategorizerService.new CategoryRepository.empty 0).2.1.findByName "Food".toList
      = some ⟨0, seededFood⟩ ∧
    ((CategorizerService.new CategoryRepository.empty 0).1.autoCategorize
      (CategorizerService.new CategoryRepository.empty 0).2.1 categorizedCoffee).1 = none ∧
    (TransactionService.importTransactions (CategorizerService.new CategoryRepository.empty 0).1
        (CategorizerService.new CategoryRepository.empty 0).2.1 TransactionRepository.empty
        [categorizedCoffee] (8 / 10)).findAll.map (fun u => u.category)
      = [some ⟨0, seededFood⟩] ∧
    ¬ ∀ u ∈ (TransactionService.importTransactions
        (CategorizerService.new CategoryRepository.empty 0).1
        (CategorizerService.new CategoryRepository.empty 0).2.1 TransactionRepository.empty
        [categorizedCoffee] (8 / 10)).findAll,
      TransactionService.storesAsClaimed (CategorizerService.new CategoryRepository.empty 0).1
        (CategorizerService.new CategoryRepository.empty 0).2.1 (8 / 10) categorizedCoffee u := by
  have hnone : ((CategorizerService.new CategoryRepository.empty 0).1.autoCategorize
      (CategorizerService.new CategoryRepository.empty 0).2.1 categorizedCoffee).1 = none := by
    decide
  have hcat : (TransactionService.importTransactions
      (CategorizerService.new CategoryRepository.empty 0).1
      (CategorizerService.new CategoryRepository.empty 0).2.1 TransactionRepository.empty
      [categorizedCoffee] (8 / 10)).findAll.map (fun u => u.category)
      = [some ⟨0, seededFood⟩] := by
    decide
  refine ⟨by decide, hnone, hcat, fun h => ?_⟩
  have hmem : some (⟨0, seededFood⟩ : CategoryPtr) ∈
      (TransactionService.importTransactions
        (CategorizerService.new CategoryRepository.empty 0).1
        (CategorizerService.new CategoryRepository.empty 0).2.1 TransactionRepository.empty
        [categorizedCoffee] (8 / 10)).findAll.map (fun u => u.category) := by
    rw [hcat]; exact List.mem_singleton.mpr rfl
  obtain ⟨u, hu, hc⟩ := List.mem_map.mp hmem
  have := (h u hu).2 (by rw [hnone]; simp)
  rw [this] at hc
  cases hc

/-- C13 (amended): for every list of transactions and every threshold,
`importTransactions` appends, for each input transaction in order, a copy with
the same id, amount, timestamp, merchant and notes that carries the proposed
category when a category was proposed with confidence at least the threshold,
and that otherwise keeps the category reference of the input (so it is
uncategorized when the input is); with threshold 0.96 a transaction whose
proposal has confidence 0.95 is stored as it is. -/
theorem C13_import_attaches_accepted_proposal (svc : CategorizerService) (catRepo : CategoryRepository)
    (repo : TransactionRepository) (txns : List Transaction) (confidenceThreshold : Confidence) :
    (∃ stored : List Transaction,
      (TransactionService.importTransactions svc catRepo repo txns confidenceThreshold).findAll
        = repo.findAll ++ stored ∧
      List.Forall₂
        (fun t u => u.txnId = t.txnId ∧ u.amount = t.amount ∧ u.date = t.date ∧
          u.merchant = t.merchant ∧ u.notes = t.notes ∧
          (∀ c, (svc.autoCategorize catRepo t).1 = some c →
            (svc.autoCategorize catRepo t).2 ≥ confidenceThreshold → u.category = some c) ∧
          ((svc.autoCategorize catRepo t).1 = none ∨
              (svc.autoCategorize catRepo t).2 < confidenceThreshold →
            u.category = t.category))
        txns stored) ∧
    (∀ t : Transaction, (svc.autoCategorize catRepo t).2 = 95 / 100 →
      (TransactionService.importTransactions svc catRepo repo [t] (96 / 100)).findAll
        = repo.findAll ++ [t]) := by
  constructor
  · induction txns generalizing repo with
    | nil => exact ⟨[], by simp [TransactionService.importTransactions], List.Forall₂.nil⟩
    | cons x xs ih =>
      obtain ⟨u, hu, hprops⟩ :=
        TransactionService.importOne_findAll svc catRepo confidenceThreshold repo x
      obtain ⟨stored, hst, hall⟩ :=
        ih (TransactionService.importOne svc catRepo confidenceThreshold repo x)
      refine ⟨u :: stored, ?_, List.Forall₂.cons hprops hall⟩
      simp only [TransactionService.importTransactions, List.foldl_cons] at hst ⊢
      rw [hst, hu, List.append_assoc, List.singleton_append]
  · intro t ht
    obtain ⟨u, hu, h1, h2, h3, h4, h5, _, h7⟩ :=
      TransactionService.importOne_findAll svc catRepo (96 / 100) repo t
    have hcat : u.category = t.category := h7 (Or.inr (by rw [ht]; norm_num))
    have : u = t := by
      cases u; cases t
      simp only at h1 h2 h3 h4 h5 hcat
      simp [h1, h2, h3, h4, h5, hcat]
    simp only [TransactionService.importTransactions, List.foldl_cons, List.foldl_nil]
    rw [hu, this]

/-- C14: for every Transaction Store state and transaction `t`, after `save(t)`
and after `addTransaction(t)` the sequence `findAll()` is the previous one
followed by `t` as given; saving `t` twice stores it twice, and a stored
transaction with the same id stays in place. -/
theorem C14_save_appends (repo : TransactionRepository) (t : Transaction) :
    (repo.save t).findAll = repo.findAll ++ [t] ∧
    (TransactionService.addTransaction repo t).findAll = repo.findAll ++ [t] ∧
    ((repo.save t).save t).findAll = repo.findAll ++ [t, t] ∧
    (∀ u ∈ repo.findAll, u.txnId = t.txnId →
      u ∈ (repo.save t).findAll ∧ (repo.save t).findAll.length = repo.findAll.length + 1) := by
  refine ⟨rfl, rfl, ?_, fun u hu _ => ⟨?_, ?_⟩⟩
  · simp [TransactionRepository.save, TransactionRepository.findAll]
  · simp only [TransactionRepository.save, TransactionRepository.findAll] at hu ⊢
    exact List.mem_append_left _ hu
  · simp [TransactionRepository.save, TransactionRepository.findAll]

/-- C15 (the claim as stated fails): with a transaction of amount -5 in a
category that is itself named Uncategorized and a transaction of amount -7
without category, `categoryBreakdownAll` has the single entry Uncategorized
with 12, not 5 for the category name and not 7 for the placeholder. -/
theorem C15_placeholder_name_clash :
    ReportService.categoryBreakdownAll placeholderClash = [(ReportService.uncategorized, 12)] ∧
    ReportService.namedSum placeholderClash.findAll ReportService.uncategorized = 5 ∧
    ReportService.nullSum placeholderClash.findAll = 7 ∧
    ¬ ReportService.namesToSums (ReportService.categoryBreakdownAll placeholderClash)
        placeholderClash.findAll := by
  have h12 : ReportService.categoryBreakdownAll placeholderClash
      = [(ReportService.uncategorized, 12)] := by decide!
  have h5 : ReportService.namedSum placeholderClash.findAll ReportService.uncategorized = 5 := by
    decide!
  have h7 : ReportService.nullSum placeholderClash.findAll = 7 := by decide!
  refine ⟨h12, h5, h7, fun h => ?_⟩
  have := h.2 ⟨⟨"t2".toList, -7, 0, "shop".toList, none, []⟩,
    by simp [placeholderClash, TransactionRepository.findAll], rfl⟩
  rw [h12, h7] at this
  revert this
  decide!

/-- C15 (amended): for every Transaction Store state, `categoryBreakdown(year,
month)`, `categoryBreakdownYear(year)` and `categoryBreakdownAll()` each return
the mapping that sends every key under which a transaction of the window is
counted (the name of its category, or the placeholder Uncategorized when it
has none) to the sum of the absolute amounts of the transactions of the window
counted under that key, added as doubles in store order from 0, and that has
no other entry; the window is the transactions whose date falls in the given
year and month, in the given year, and all transactions.  Where no category
of the window is itself named Uncategorized this is the mapping by category
name and placeholder as claimed.  Amounts 100 (Salary), -40 (Food), -10 (no
category) in one month, next to -300 (Food) in another month, give Food 40,
Salary 100, Uncategorized 10. -/
theorem C15_breakdown_by_key (localtime : LocalTime) (repo : TransactionRepository)
    (year month : Int) :
    ReportService.labelsToSums (ReportService.categoryBreakdown localtime repo year month)
      (ReportService.monthWindow localtime repo year month) ∧
    ReportService.labelsToSums (ReportService.categoryBreakdownYear localtime repo year)
      (ReportService.yearWindow localtime repo year) ∧
    ReportService.labelsToSums (ReportService.categoryBreakdownAll repo) repo.findAll ∧
    (∀ (m : StdMap Decimal) (window : List Transaction),
      (∀ t ∈ window, ∀ c, t.category = some c → c.obj.name ≠ ReportService.uncategorized) →
      ReportService.labelsToSums m window → ReportService.namesToSums m window) ∧
    (∀ date other : TimePoint,
      ¬ ((localtime (to_time_t other)).year = (localtime (to_time_t date)).year ∧
        (localtime (to_time_t other)).month = (localtime (to_time_t date)).month) →
      ReportService.categoryBreakdown localtime (exampleStore date other)
          (localtime (to_time_t date)).year (localtime (to_time_t date)).month
        = [("Food".toList, 40), ("Salary".toList, 100), ("Uncategorized".toList, 10)]) := by
  refine ⟨ReportService.labelsToSums_foldl _, ?_, ReportService.labelsToSums_foldl _,
    ReportService.namesToSums_of_labelsToSums, fun date other hother => ?_⟩
  · rw [ReportService.categoryBreakdownYear_eq]
    exact ReportService.labelsToSums_foldl _
  · unfold ReportService.categoryBreakdown
    rw [ReportService.findByUserAndMonth_eq, ReportService.exampleStore_window _ _ _ hother]
    have h1 : strLt "Food".toList "Salary".toList = true := by decide
    have h2 : strLt "Salary".toList "Food".toList = false := by decide
    have h3 : strLt "Uncategorized".toList "Food".toList = false := by decide
    have h4 : strLt "Food".toList "Uncategorized".toList = true := by decide
    have h5 : strLt "Uncategorized".toList "Salary".toList = false := by decide
    have h6 : strLt "Salary".toList "Uncategorized".toList = true := by decide
    have e1 : ("Salary".toList = "Food".toList) = False := by decide
    have e2 : ("Food".toList = "Uncategorized".toList) = False := by decide
    have e3 : ("Salary".toList = "Uncategorized".toList) = False := by decide
    simp only [List.foldl_cons, List.foldl_nil,
      ReportService.accumulate, StdMap.addTo, StdMap.insert, StdMap.find, seededSalary,
      seededFood, ReportService.uncategorized, h1, h2, h3, h4, h5, h6, e1, e2, e3,
      if_true, if_false, Option.getD_none, Bool.false_eq_true]
    decide!

/-- C15 (amended), in UTC: the example store with its three transactions at
the epoch (January 1970) and the fourth on the first of February 1970. -/
theorem C15_breakdown_by_key_witness :
    ¬ ((utc (to_time_t february1970)).year = (utc (to_time_t 0)).year ∧
        (utc (to_time_t february1970)).month = (utc (to_time_t 0)).month) ∧
    (utc (to_time_t 0)).year = 1970 ∧ (utc (to_time_t 0)).month = 1 ∧
    ReportService.categoryBreakdown utc (exampleStore 0 february1970)
        (utc (to_time_t 0)).year (utc (to_time_t 0)).month
      = [("Food".toList, 40), ("Salary".toList, 100), ("Uncategorized".toList, 10)] :=
  ⟨by decide, by decide, by decide,
    (C15_breakdown_by_key utc (exampleStore 0 february1970) 1970 1).2.2.2.2 0 february1970
      (by decide)⟩

/-- C16 (the claim as stated fails): with an amount of 100 and an amount that
is a NaN in the month, `incomeExpenseTotalsMonth` and `incomeExpenseTotalsYear`
return the expense NaN, where the sum of the negated amounts below 0 is 0: a
NaN is neither at least 0 nor below 0, and the code adds to the expense every
amount that is not at least 0. -/
theorem C16_nan_amount_counts_as_expense :
    ReportService.monthWindow utc nanStore 1970 1 = nanStore.findAll ∧
    ReportService.yearWindow utc nanStore 1970 = nanStore.findAll ∧
    ReportService.incomeExpenseTotalsMonth utc nanStore 1970 1 = (100, Double.nan) ∧
    ReportService.incomeExpenseTotalsYear utc nanStore 1970 = (100, Double.nan) ∧
    ReportService.signSplit (nanStore.findAll.map fun t => t.amount) = (100, 0) ∧
    ReportService.incomeExpenseTotalsMonth utc nanStore 1970 1
      ≠ ReportService.signSplit
          ((ReportService.monthWindow utc nanStore 1970 1).map fun t => t.amount) ∧
    ReportService.incomeExpenseTotalsYear utc nanStore 1970
      ≠ ReportService.signSplit
          ((ReportService.yearWindow utc nanStore 1970).map fun t => t.amount) := by
  refine ⟨?_, ?_, ?_, ?_, ?_, ?_, ?_⟩ <;> decide!

/-- C16 (amended): for every Transaction Store state and window,
`incomeExpenseTotalsMonth` and `incomeExpenseTotalsYear` return (income,
expense) where income is the sum of the amounts that are at least 0 and
expense is the sum of the negated amounts that are not at least 0, over the
transactions whose date falls in the given year and month, or in the given
year, added as doubles in store order from 0; an amount is not at least 0
exactly when it is below 0 or a NaN, so without a NaN in the window the totals
are those claimed; two stores with the same amounts and dates have the same
totals, whatever their categories; amounts 100, -40, -10 in one month, next to
-300 in another month, give (100, 50). -/
theorem C16_totals_split_by_sign (localtime : LocalTime) (repo : TransactionRepository)
    (year month : Int) :
    ReportService.incomeExpenseTotalsMonth localtime repo year month
      = ReportService.geSplit
          ((ReportService.monthWindow localtime repo year month).map fun t => t.amount) ∧
    ReportService.incomeExpenseTotalsYear localtime repo year
      = ReportService.geSplit
          ((ReportService.yearWindow localtime repo year).map fun t => t.amount) ∧
    (∀ a : Decimal, Double.ge a 0 = false ↔ (Double.lt a 0 = true ∨ a = Double.nan)) ∧
    (∀ amounts : List Decimal, (∀ a ∈ amounts, a ≠ Double.nan) →
      ReportService.geSplit amounts = ReportService.signSplit amounts) ∧
    (∀ other : TransactionRepository,
      (other.findAll.map fun t => (t.amount, t.date))
        = (repo.findAll.map fun t => (t.amount, t.date)) →
      ReportService.incomeExpenseTotalsMonth localtime other year month
        = ReportService.incomeExpenseTotalsMonth localtime repo year month ∧
      ReportService.incomeExpenseTotalsYear localtime other year
        = ReportService.incomeExpenseTotalsYear localtime repo year) ∧
    (∀ date other : TimePoint,
      ¬ ((localtime (to_time_t other)).year = (localtime (to_time_t date)).year ∧
        (localtime (to_time_t other)).month = (localtime (to_time_t date)).month) →
      ReportService.incomeExpenseTotalsMonth localtime (exampleStore date other)
          (localtime (to_time_t date)).year (localtime (to_time_t date)).month
        = (100, 50)) := by
  have hm : ∀ r : TransactionRepository,
      ReportService.incomeExpenseTotalsMonth localtime r year month
        = ReportService.geSplit
            ((ReportService.monthWindow localtime r year month).map fun t => t.amount) :=
    fun r => ReportService.foldl_tally_zero _
  have hy : ∀ r : TransactionRepository,
      ReportService.incomeExpenseTotalsYear localtime r year
        = ReportService.geSplit
            ((ReportService.yearWindow localtime r year).map fun t => t.amount) := by
    intro r
    rw [ReportService.incomeExpenseTotalsYear_eq]
    exact ReportService.foldl_tally_zero _
  refine ⟨hm repo, hy repo, ReportService.not_ge_zero, fun amounts hnan => ?_,
    fun other hsame => ?_, fun date other hother => ?_⟩
  · unfold ReportService.geSplit ReportService.signSplit
    congr 3
    apply List.filter_congr
    intro a ha
    cases hge : Double.ge a 0 with
    | true =>
      cases hlt : Double.lt a 0 with
      | false => rfl
      | true =>
        have := (ReportService.not_ge_zero a).mpr (Or.inl hlt)
        rw [hge] at this
        cases this
    | false =>
      rcases (ReportService.not_ge_zero a).mp hge with hlt | hn
      · rw [hlt]; rfl
      · exact (hnan a ha hn).elim
  · simp only [TransactionRepository.findAll] at hsame
    constructor
    · rw [hm, hm]
      simp only [ReportService.monthWindow, TransactionRepository.findAll]
      rw [ReportService.window_amounts
          (fun d => decide ((localtime (to_time_t d)).year = year ∧
            (localtime (to_time_t d)).month = month)) other.txns,
        ReportService.window_amounts
          (fun d => decide ((localtime (to_time_t d)).year = year ∧
            (localtime (to_time_t d)).month = month)) repo.txns, hsame]
    · rw [hy, hy]
      simp only [ReportService.yearWindow, TransactionRepository.findAll]
      rw [ReportService.window_amounts
          (fun d => decide ((localtime (to_time_t d)).year = year)) other.txns,
        ReportService.window_amounts
          (fun d => decide ((localtime (to_time_t d)).year = year)) repo.txns, hsame]
  · unfold ReportService.incomeExpenseTotalsMonth
    rw [ReportService.findByUserAndMonth_eq, ReportService.foldl_tally_zero,
      ReportService.exampleStore_window _ _ _ hother]
    simp only [List.map_cons, List.map_nil]
    decide!

/-- C16 (amended), in UTC: the example store with its three transactions at
the epoch (January 1970) and the fourth on the first of February 1970. -/
theorem C16_totals_split_by_sign_witness :
    ¬ ((utc (to_time_t february1970)).year = (utc (to_time_t 0)).year ∧
        (utc (to_time_t february1970)).month = (utc (to_time_t 0)).month) ∧
    ReportService.incomeExpenseTotalsMonth utc (exampleStore 0 february1970)
        (utc (to_time_t 0)).year (utc (to_time_t 0)).month
      = (100, 50) :=
  ⟨by decide,
    (C16_totals_split_by_sign utc (exampleStore 0 february1970) 1970 1).2.2.2.2.2
      0 february1970 (by decide)⟩

/-- C17: for every text read by `TransactionRepository::loadFromCsv`, every
record with at least 6 fields adds one transaction, in order; it references
the category the resolver finds when a resolver is supplied, the recorded name
is non-empty and `findByName` finds it, and has a null reference in every other
case (no resolver, empty name, name not found). -/
theorem C17_load_resolves_category (dt : DecimalText) (clock : Nat → TimePoint) (repo : TransactionRepository)
    (text : Str) (catRepo : Option CategoryRepository) :
    ∃ loaded : List Transaction,
      (repo.loadFromCsv dt clock (some text) catRepo).findAll = repo.findAll ++ loaded ∧
      List.Forall₂ (TransactionRepository.resolvedAs catRepo)
        ((getlineAll newline text).filter fun l => decide (6 ≤ (splitCsvLine l).length))
        loaded :=
  TransactionRepository.loadLines_records dt clock catRepo (getlineAll newline text) repo

/-- C18: for every input text, `CategoryRepository::loadFromCsv` skips each
record with fewer than 3 fields: every text whose lines are the lines of the
input with at least 3 fields (such as those lines written out again) loads to
the same store, and the result is one `save` per record with at least 3
fields, in order. -/
theorem C18_short_records_skipped (repo : CategoryRepository) (heap : Heap) (text : Str) :
    (∀ text2 : Str,
      getlineAll newline text2
        = ((getlineAll newline text).filter fun l => decide (3 ≤ (splitCsvLine l).length)) →
      repo.loadFromCsv heap (some text2) = repo.loadFromCsv heap (some text)) ∧
    getlineAll newline
        (unlines ((getlineAll newline text).filter fun l =>
          decide (3 ≤ (splitCsvLine l).length)))
      = ((getlineAll newline text).filter fun l => decide (3 ≤ (splitCsvLine l).length)) ∧
    repo.loadFromCsv heap (some text)
      = ((getlineAll newline text).filter fun l =>
          decide (3 ≤ (splitCsvLine l).length)).foldl
          (fun st l => (st.1.save st.2 (CategoryRepository.parseRecord l)).2) (repo, heap) := by
  have hskip : ∀ (st : CategoryRepository × Heap) (l : Str),
      decide (3 ≤ (splitCsvLine l).length) = false → CategoryRepository.loadLine st l = st := by
    intro st l hl
    exact (CategoryRepository.loadLine_category_record st l).2 (by simpa using hl)
  have hfilter : ∀ lines : List Str, ∀ st : CategoryRepository × Heap,
      lines.foldl CategoryRepository.loadLine st
        = (lines.filter fun l => decide (3 ≤ (splitCsvLine l).length)).foldl
            CategoryRepository.loadLine st :=
    fun lines st => foldl_filter_of_skip _ _ hskip lines st
  refine ⟨fun text2 h2 => ?_, ?_, ?_⟩
  · simp only [CategoryRepository.loadFromCsv]
    rw [hfilter (getlineAll newline text2), hfilter (getlineAll newline text), h2,
      List.filter_filter]
    simp
  · apply getlineAll_unlines
    intro l hl
    exact getlineAll_no_delim newline text l (List.mem_of_mem_filter hl)
  · simp only [CategoryRepository.loadFromCsv]
    rw [hfilter]
    generalize (getlineAll newline text) = lines
    generalize (repo, heap) = st
    induction lines generalizing st with
    | nil => rfl
    | cons l ls ih =>
      by_cases h3 : 3 ≤ (splitCsvLine l).length
      · rw [List.filter_cons_of_pos (by simpa using h3), List.foldl_cons, List.foldl_cons,
          (CategoryRepository.loadLine_category_record st l).1 h3, ih]
      · rw [List.filter_cons_of_neg (by simpa using h3)]
        exact ih st

/-- C19 (the claim as stated fails): the record `7,Pay,1abc` has the third
field `1abc`, which is not an integer, yet `std::stoi` reads the leading 1 and
the loaded category has kind Income. -/
theorem C19_trailing_text_reads_as_one :
    (splitCsvLine trailingTextRecord).length = 3 ∧
    thirdField trailingTextRecord = "1abc".toList ∧
    integerText "1abc".toList = none ∧
    stoi "1abc".toList = some 1 ∧
    (CategoryRepository.loadFromCsv CategoryRepository.empty 0
        (some (trailingTextRecord ++ [newline]))).1.all.map (fun p => p.obj)
      = [⟨"7".toList, "Pay".toList, CategoryType.Income⟩] ∧
    ¬ CategoryRepository.kindAsClaimed trailingTextRecord := by
  refine ⟨by decide, by decide, by decide, by decide, by decide, fun h => ?_⟩
  have := h.1 (by decide)
  revert this
  decide

/-- C19 (amended): for every category record with at least 3 fields, the
loaded category's kind is Income exactly when `std::stoi` reads the value 1
from the third field, and Expense otherwise (when `std::stoi` throws, and for
every other value); for a third field that as a whole is a decimal integer the
kind is Income exactly when that integer is 1. -/
theorem C19_kind_from_stoi (st : CategoryRepository × Heap) (line : Str)
    (h : 3 ≤ (splitCsvLine line).length) :
    CategoryRepository.loadLine st line
      = (st.1.save st.2 (CategoryRepository.parseRecord line)).2 ∧
    ((CategoryRepository.parseRecord line).type = CategoryType.Income
      ↔ stoi (thirdField line) = some 1) ∧
    ((CategoryRepository.parseRecord line).type = CategoryType.Expense
      ↔ stoi (thirdField line) ≠ some 1) ∧
    (∀ n : Int, integerText (thirdField line) = some n →
      ((CategoryRepository.parseRecord line).type = CategoryType.Income ↔ n = 1)) := by
  refine ⟨(CategoryRepository.loadLine_category_record st line).1 h, parseRecord_income line, ?_,
    fun n hn => (parseRecord_income line).trans (stoi_of_integerText _ n hn)⟩
  rw [← not_iff_not, not_not, ← parseRecord_income]
  cases (CategoryRepository.parseRecord line).type <;> simp

/-- C19 (amended), at the record `7,Pay,1abc`: the kind is Income. -/
theorem C19_kind_from_stoi_witness :
    3 ≤ (splitCsvLine trailingTextRecord).length ∧
    (CategoryRepository.parseRecord trailingTextRecord).type = CategoryType.Income :=
  ⟨by decide,
    (C19_kind_from_stoi (CategoryRepository.empty, 0) trailingTextRecord (by decide)).2.1.mpr (by decide)⟩

/-- C20: for every string `s`, `unescapeCsv (escapeCsv s) = s`, where
`escapeCsv` replaces every quote character by two and copies every other
character. -/
theorem C20_unescape_escape (s : Str) :
    unescapeCsv (escapeCsv s) = s ∧
    escapeCsv s = (s.map fun c => if c = dquote then [dquote, dquote] else [c]).flatten := by
  constructor
  · induction s with
    | nil => rfl
    | cons c cs ih =>
      by_cases hc : c = dquote
      · subst hc
        simp only [escapeCsv, if_true, unescapeCsv, and_self, ih]
      · simp only [escapeCsv, hc, if_false]
        cases hcs : escapeCsv cs with
        | nil =>
          rw [hcs] at ih
          simp only [unescapeCsv] at ih ⊢
          rw [← ih]
        | cons d rest =>
          rw [hcs] at ih
          simp only [unescapeCsv, hc, false_and, if_false, ih]
  · induction s with
    | nil => rfl
    | cons c cs ih =>
      by_cases hc : c = dquote
      · simp [escapeCsv, hc, ih]
      · simp [escapeCsv, hc, ih]

/-- C21: for every Category Store (a `std::map` keyed by the names of its
categories) in which no category id and no category name holds a comma or a
line feed, `saveToCsv` followed by `loadFromCsv` into an empty store gives the
same entries in the same order with the same id, name and kind: `findByName`
returns a category with the same contents for every name and none for a name
the store did not hold, and `all()` lists the same categories. -/
theorem C21_category_roundtrip_without_delimiters (repo : CategoryRepository) (heap : Heap)
    (hwf : StdMap.WF repo.byName) (hkeyed : repo.KeyedByName)
    (hfree : ∀ p ∈ repo.all, delimiterFree p.obj.categoryId ∧ delimiterFree p.obj.name) :
    (CategoryRepository.loadFromCsv CategoryRepository.empty heap
        (some repo.saveToCsv)).1.byName.map (fun e => (e.1, e.2.obj))
      = repo.byName.map (fun e => (e.1, e.2.obj)) ∧
    (∀ n : Str,
      ((CategoryRepository.loadFromCsv CategoryRepository.empty heap
          (some repo.saveToCsv)).1.findByName n).map (fun p => p.obj)
        = (repo.findByName n).map fun p => p.obj) ∧
    (CategoryRepository.loadFromCsv CategoryRepository.empty heap
        (some repo.saveToCsv)).1.all.map (fun p => p.obj)
      = repo.all.map fun p => p.obj := by
  have hfree2 : ∀ e ∈ repo.byName,
      delimiterFree e.2.obj.categoryId ∧ delimiterFree e.2.obj.name := by
    intro e he
    exact hfree e.2 (List.mem_map.mpr ⟨e, he, rfl⟩)
  have hlines : getlineAll newline repo.saveToCsv
      = repo.byName.map fun p => CategoryRepository.recordLine p.2.obj := by
    rw [CategoryRepository.saveToCsv_eq_unlines]
    apply getlineAll_unlines
    intro l hl
    obtain ⟨e, he, rfl⟩ := List.mem_map.mp hl
    exact CategoryRepository.newline_not_mem_recordLine e.2.obj (hfree2 e he).1.2
      (hfree2 e he).2.2
  have hentries : (CategoryRepository.loadFromCsv CategoryRepository.empty heap
        (some repo.saveToCsv)).1.byName.map (fun e => (e.1, e.2.obj))
      = repo.byName.map (fun e => (e.1, e.2.obj)) := by
    simp only [CategoryRepository.loadFromCsv]
    rw [hlines, CategoryRepository.foldl_loadLine_recordLine repo.byName
      (fun e he => ⟨(hfree2 e he).1.1, (hfree2 e he).2.1⟩)]
    have := CategoryRepository.foldl_save_entries repo.byName [] heap (by simpa using hwf) hkeyed
    simpa [CategoryRepository.empty] using this
  refine ⟨hentries, fun n => ?_, ?_⟩
  · simp only [CategoryRepository.findByName]
    rw [StdMap.find_map_snd, StdMap.find_map_snd, hentries]
  · have := congrArg (List.map Prod.snd) hentries
    simpa [CategoryRepository.all, List.map_map, Function.comp_def] using this

/-- C21 at a store whose ids and names hold quote characters and empty
strings. -/
theorem C21_category_roundtrip_without_delimiters_witness :
    quotedStore.all.map (fun p => p.obj)
      = [⟨[], [], CategoryType.Expense⟩,
         ⟨[Char.ofNat 99, dquote, Char.ofNat 49],
          "say ".toList ++ dquote :: "hi".toList ++ [dquote], CategoryType.Income⟩] ∧
    (CategoryRepository.loadFromCsv CategoryRepository.empty 7
        (some quotedStore.saveToCsv)).1.all.map (fun p => p.obj)
      = quotedStore.all.map fun p => p.obj :=
  ⟨by decide,
    (C21_category_roundtrip_without_delimiters quotedStore 7
      (by unfold StdMap.WF; decide)
      (by unfold CategoryRepository.KeyedByName; decide)
      (by simp only [delimiterFree]; decide)).2.2⟩

end Ledger
